import Mathlib

/-!
# `docker stack ls`: aggregation and rendering of stack summaries

A shallow embedding of `cli/command/stack/list.go`.

* A Go string is a sequence of bytes. It is represented by a `String` whose
  characters stand for the bytes (the code points 0 to 255), so the byte
  `0xff` is the character `'\xff'`, the comparison `<` of Go is the comparison
  of the character sequences, and the number of runes of a text is computed
  by `RuneCount`, a transcription of `utf8.RuneCount`.
* Go `int` is represented by `Int`; a service count cannot come near `2^63`.
* A Go `map[string]*stack` is an association list with unique keys; the
  order in which `range` visits it is given by a `MapOrder`.
* `sort.Sort` and `text/tabwriter` belong to the Go standard library.
  `sort.Sort` reaches the data through `byName.Len`, `byName.Less` and
  `byName.Swap` only and is embedded by the library's insertion sort; the
  tabwriter is a transcription of its cell and column algorithm for the flag
  value `0`.
-/

namespace Stack

/-! ## Data model -/

/-- Go `error` value, represented by the text its `Error()` method returns. -/
structure GoError where
  msg : String
deriving DecidableEq, Repr

/-- The `errors.Errorf` call of `getStacks`, with the format
`"cannot get label %s for service %s"`. -/
def Errorf (labelKey serviceID : String) : GoError :=
  ⟨"cannot get label " ++ labelKey ++ " for service " ++ serviceID⟩

/-- The part of `swarm.ServiceSpec` that is read: the label map. A Go
`map[string]string` is an association list, looked up with `List.lookup`. -/
structure ServiceSpec where
  Labels : List (String × String)
deriving DecidableEq, Repr

/-- The part of `swarm.Service` that is read. -/
structure Service where
  ID : String
  Spec : ServiceSpec
deriving DecidableEq, Repr

/-- The Go type `stack`. -/
structure stack where
  Name : String
  Services : Int
deriving DecidableEq, Repr

/-- The Go type `listOptions` (no fields). -/
structure listOptions where
deriving DecidableEq, Repr

/-- The API client: `response` is what the daemon answers to `ServiceList`
with the all-stacks filter (the two results of the Go call), `calls` counts
the `ServiceList` requests issued so far. -/
structure APIClient where
  response : List Service × Option GoError
  calls : Nat

/-- The call `apiclient.ServiceList(ctx, options)`. -/
def APIClient.ServiceList (c : APIClient) :
    (List Service × Option GoError) × APIClient :=
  (c.response, { c with calls := c.calls + 1 })

/-- A Go `map[string]*stack`. -/
abbrev GoMap := List (String × stack)

/-- The Go expression `m[k]` with the `ok` flag. -/
def GoMap.get (m : GoMap) (k : String) : Option stack :=
  List.lookup k m

/-- The Go statement `m[k] = v` (and a write through the pointer stored at `k`). -/
def GoMap.set : GoMap → String → stack → GoMap
  | [], k, v => [(k, v)]
  | (k', v') :: m, k, v =>
    if k' = k then (k, v) :: m else (k', v') :: GoMap.set m k v

/-- The order in which a `range` loop visits a Go map: unspecified, but each
entry is visited once. -/
structure MapOrder where
  range : GoMap → GoMap
  perm : ∀ m, (range m).Perm m

/-- The label lookup `service.Spec.Labels[convert.LabelNamespace]`. -/
def Service.namespaceLabel (LabelNamespace : String) (service : Service) :
    Option String :=
  List.lookup LabelNamespace service.Spec.Labels

/-! ## Aggregation -/

/-- The first loop of `getStacks`: `for _, service := range services`. -/
def getStacksLoop (LabelNamespace : String) :
    List Service → GoMap → Except GoError GoMap
  | [], m => .ok m
  | service :: services, m =>
    match service.namespaceLabel LabelNamespace with
    | none => .error (Errorf LabelNamespace service.ID)
    | some name =>
      match m.get name with
      | none =>
        getStacksLoop LabelNamespace services
          (m.set name { Name := name, Services := 1 })
      | some ztack =>
        getStacksLoop LabelNamespace services
          (m.set name { ztack with Services := ztack.Services + 1 })

/-- The Go function `getStacks`. `LabelNamespace` is the constant
`convert.LabelNamespace`; the results are the pair `([]*stack, error)` and
the client after the call. -/
def getStacks (order : MapOrder) (LabelNamespace : String)
    (apiclient : APIClient) : (List stack × Option GoError) × APIClient :=
  match apiclient.ServiceList with
  | ((_, some err), apiclient') => (([], some err), apiclient')
  | ((services, none), apiclient') =>
    match getStacksLoop LabelNamespace services [] with
    | .error err => (([], some err), apiclient')
    | .ok m => (((order.range m).map Prod.snd, none), apiclient')

/-! ## Sorting -/

/-- The Go method `byName.Len`. -/
def byName.Len (n : List stack) : Nat := n.length

/-- The Go method `byName.Swap`: `n[i], n[j] = n[j], n[i]`. An index out of
range makes the Go code panic; the sort passes none. -/
def byName.Swap (n : List stack) (i j : Nat) : List stack :=
  match n[i]?, n[j]? with
  | some a, some b => (n.set i b).set j a
  | _, _ => n

/-- The Go method `byName.Less`: `n[i].Name < n[j].Name`. -/
def byName.Less (n : List stack) (i j : Nat) : Bool :=
  match n[i]?, n[j]? with
  | some a, some b => decide (a.Name.data < b.Name.data)
  | _, _ => false

/-- The inner loop of the library's `insertionSort`:
`for j := i; j > a && data.Less(j, j-1); j-- { data.Swap(j, j-1) }`. -/
def insertionSortInner (a : Nat) : Nat → List stack → List stack
  | 0, data => data
  | j + 1, data =>
    if j + 1 > a ∧ byName.Less data (j + 1) j = true then
      insertionSortInner a j (byName.Swap data (j + 1) j)
    else data

/-- The outer loop of the library's `insertionSort`,
`for i := a + 1; i < b; i++`, with `k` the number of rounds left, `b - i`. -/
def insertionSortLoop (a : Nat) : Nat → Nat → List stack → List stack
  | 0, _, data => data
  | k + 1, i, data => insertionSortLoop a k (i + 1) (insertionSortInner a i data)

/-- The library function `insertionSort(data, a, b)`. -/
def insertionSort (data : List stack) (a b : Nat) : List stack :=
  insertionSortLoop a (b - (a + 1)) (a + 1) data

/-- The call `sort.Sort(byName(stacks))` (`Sort` is a reserved word here).
The library reaches the slice through `Len`, `Less` and `Swap` only. It is
embedded by `insertionSort(data, 0, n)`, the routine the library runs on
short slices; on longer slices the library partitions the slice first, which
can change the result only in the order of summaries with equal names
(`sorted_names_eq`, `sortSort_eq_of_sorted`). -/
def sortSort (data : List stack) : List stack :=
  let n := byName.Len data
  insertionSort data 0 n

/-- The identity visiting order of a map. -/
def insertionOrder : MapOrder where
  range := id
  perm := fun m => List.Perm.refl m

/-- The reverse visiting order of a map. -/
def reverseOrder : MapOrder where
  range := List.reverse
  perm := fun m => List.reverse_perm m

/-- The order of two summaries under which no swap is needed. -/
def nameLE (a b : stack) : Prop := ¬ (b.Name.data < a.Name.data)

instance : DecidableRel nameLE := fun _ _ => inferInstanceAs (Decidable (¬ _))

/-! ## `text/tabwriter`

The writer is created with `flags = 0` and the padding character `' '`, so
the paths for `FilterHTML`, `StripEscape`, `AlignRight`, `DiscardEmptyColumns`,
`TabIndent`, `Debug` and tab padding are not taken. A cell keeps its own text
instead of an offset into the shared byte buffer, and `unmeasured` is the
part `buf[pos:]` of the buffer whose runes are not yet counted. -/

/-- The table `first` of `unicode/utf8`: the class of a leading byte. -/
def utf8First (c : Nat) : Nat :=
  if c < 0x80 then 0xF0
  else if c < 0xC2 then 0xF1
  else if c < 0xE0 then 0x02
  else if c = 0xE0 then 0x13
  else if c < 0xED then 0x03
  else if c = 0xED then 0x23
  else if c < 0xF0 then 0x03
  else if c = 0xF0 then 0x34
  else if c < 0xF4 then 0x04
  else if c = 0xF4 then 0x44
  else 0xF1

/-- The table `acceptRanges` of `unicode/utf8`: the lowest and highest second
byte accepted after a leading byte of the class. -/
def acceptRanges (i : Nat) : Nat × Nat :=
  match i with
  | 0 => (0x80, 0xBF)
  | 1 => (0xA0, 0xBF)
  | 2 => (0x80, 0x9F)
  | 3 => (0x90, 0xBF)
  | 4 => (0x80, 0x8F)
  | _ => (0, 0)

/-- One round of the loop of `utf8.RuneCount`: the number of bytes taken by
the rune that starts with the byte `c` and goes on in `rest`. -/
def runeSize (c : Nat) (rest : List Nat) : Nat :=
  if c < 0x80 then 1
  else
    let x := utf8First c
    if x = 0xF1 then 1
    else
      let size := x % 8
      if rest.length + 1 < size then 1
      else
        let accept := acceptRanges (x / 16)
        let c1 := rest.getD 0 0
        if c1 < accept.1 ∨ accept.2 < c1 then 1
        else if size = 2 then 2
        else
          let c2 := rest.getD 1 0
          if c2 < 0x80 ∨ 0xBF < c2 then 1
          else if size = 3 then 3
          else
            let c3 := rest.getD 2 0
            if c3 < 0x80 ∨ 0xBF < c3 then 1 else size

/-- The loop of `utf8.RuneCount` over the bytes `p[i:]`; `skip` bytes belong
to the rune counted last. -/
def runeCountFrom : Nat → List Nat → Nat
  | _, [] => 0
  | skip + 1, _ :: rest => runeCountFrom skip rest
  | 0, c :: rest => 1 + runeCountFrom (runeSize c rest - 1) rest

/-- The Go function `utf8.RuneCount`. -/
def RuneCount (p : List Char) : Nat :=
  runeCountFrom 0 (p.map Char.toNat)

/-- The tabwriter's `cell`: its text (`size` is the number of its bytes), its
width in runes and whether a horizontal tab ends it. -/
structure cell where
  text : List Char
  width : Int
  htab : Bool
deriving DecidableEq, Repr

/-- The field `cell.size`: the number of bytes of the cell's text. -/
def cell.size (c : cell) : Nat := c.text.length

/-- The constant `tabwriter.Escape`. -/
def Escape : Char := '\xff'

/-- The state of a `tabwriter.Writer`. `output` is the text handed to the
underlying `io.Writer` so far; the Go field `lines` is `lines ++ [line]`;
`endChar` is the character `0` outside an escaped segment. -/
structure Writer where
  output : List Char
  minwidth : Nat
  tabwidth : Nat
  padding : Nat
  padchar : Char
  lines : List (List cell)
  line : List cell
  cell : cell
  unmeasured : List Char
  endChar : Char
deriving DecidableEq, Repr

/-- The Go function `tabwriter.NewWriter` (`Init` followed by `reset`). -/
def NewWriter (output : List Char) (minwidth tabwidth padding : Nat)
    (padchar : Char) : Writer :=
  { output := output, minwidth := minwidth, tabwidth := tabwidth,
    padding := padding, padchar := padchar,
    lines := [], line := [], cell := ⟨[], 0, false⟩, unmeasured := [],
    endChar := '\x00' }

/-- The method `append`: text joins the buffer and the current cell. -/
def Writer.append (b : Writer) (text : List Char) : Writer :=
  { b with cell := { b.cell with text := b.cell.text ++ text },
           unmeasured := b.unmeasured ++ text }

/-- The method `updateWidth`: the runes of `buf[pos:]` are added to the width
of the current cell. -/
def Writer.updateWidth (b : Writer) : Writer :=
  { b with cell := { b.cell with width := b.cell.width + RuneCount b.unmeasured },
           unmeasured := [] }

/-- The method `startEscape`. -/
def Writer.startEscape (b : Writer) (ch : Char) : Writer :=
  if ch = Escape then { b with endChar := Escape }
  else if ch = '<' then { b with endChar := '>' }
  else if ch = '&' then { b with endChar := ';' }
  else b

/-- The method `endEscape` for `flags = 0`: the two escape bytes of an
escaped segment are not counted in the width. -/
def Writer.endEscape (b : Writer) : Writer :=
  let b1 :=
    if b.endChar = Escape then
      let b2 := b.updateWidth
      { b2 with cell := { b2.cell with width := b2.cell.width - 2 } }
    else if b.endChar = ';' then
      { b with cell := { b.cell with width := b.cell.width + 1 } }
    else b
  { b1 with unmeasured := [], endChar := '\x00' }

/-- The method `terminateCell`: the current cell closes the current line;
the second result is the number of cells of that line. -/
def Writer.terminateCell (b : Writer) (htab : Bool) : Writer × Nat :=
  let line := b.line ++ [{ b.cell with htab := htab }]
  ({ b with line := line, cell := ⟨[], 0, false⟩ }, line.length)

/-- The method `addLine`. -/
def Writer.addLine (b : Writer) : Writer :=
  { b with lines := b.lines ++ [b.line], line := [] }

/-- The method `writePadding` for a padding character other than tab:
`writeN(padbytes, cellw - textw)`. The count is not negative for a cell of a
column, whose width is at least the cell's own. -/
def writePadding (padchar : Char) (textw cellw : Int) : List Char :=
  List.replicate (cellw - textw).toNat padchar

/-- The inner loop of `writeLines` over the cells of one line, left aligned;
`j` is the index of the first cell of the list. -/
def writeCells (padchar : Char) (widths : List Int) : Nat → List cell → List Char
  | _, [] => []
  | j, c :: line =>
    (if c.size = 0 then
      (if j < widths.length then writePadding padchar c.width (widths.getD j 0) else [])
    else
      c.text ++
        (if j < widths.length then writePadding padchar c.width (widths.getD j 0) else []))
    ++ writeCells padchar widths (j + 1) line

/-- The method `writeLines`. A line is paired with the flag `i+1 == len(b.lines)`:
the last buffered line gets the text of the pending cell instead of a newline. -/
def writeLines (padchar : Char) (pending : List Char) (widths : List Int) :
    List (List cell × Bool) → List Char
  | [] => []
  | (line, last) :: lines =>
    writeCells padchar widths 0 line ++ (if last then pending else ['\n'])
      ++ writeLines padchar pending widths lines

/-- The test `column < len(line)-1` of `format`: the line has a
tab-terminated cell in the column. -/
def hasColumn (column : Nat) (line : List cell × Bool) : Bool :=
  decide (column < line.1.length - 1)

/-- The width of a column block: `minwidth`, raised to each cell's width
plus `padding`. -/
def columnWidth (minwidth padding column : Nat) (block : List (List cell × Bool)) : Int :=
  block.foldl
    (fun width line =>
      let w : Int := (line.1.getD column ⟨[], 0, false⟩).width + (padding : Int)
      if w > width then w else width)
    (minwidth : Int)

/-- Split a list into its maximal runs of consecutive elements on which `p`
is constant, each with the value of `p`. -/
def splitRuns {α : Type} (p : α → Bool) : List α → List (Bool × List α)
  | [] => []
  | x :: xs =>
    match splitRuns p xs with
    | [] => [(p x, [x])]
    | (v, run) :: runs =>
      if v = p x then (v, x :: run) :: runs else (p x, [x]) :: (v, run) :: runs

/-- The method `format` at column `len(widths)`: the lines without a cell in
the column are written as they are, each maximal block of lines with a cell
in the column gets its width and is formatted at the next column. `fuel`
bounds the depth of the recursion, which is at most the number of cells of
the longest line. -/
def format (minwidth padding : Nat) (padchar : Char) (pending : List Char) :
    Nat → List Int → List (List cell × Bool) → List Char
  | 0, widths, lines => writeLines padchar pending widths lines
  | fuel + 1, widths, lines =>
    ((splitRuns (hasColumn widths.length) lines).map fun run =>
      if run.1 then
        format minwidth padding padchar pending fuel
          (widths ++ [columnWidth minwidth padding widths.length run.2]) run.2
      else
        writeLines padchar pending widths run.2).flatten

/-- The method `flushNoDefers` (the body of `Flush`): close a non-empty
pending cell, ending an escaped segment that is still open, format all
buffered lines, reset. -/
def Writer.flushNoDefers (b : Writer) : Writer :=
  let b1 :=
    if b.cell.size > 0 then
      ((if b.endChar ≠ '\x00' then b.endEscape else b).terminateCell false).1
    else b
  let lines := b1.lines.map (fun l => (l, false)) ++ [(b1.line, true)]
  let fuel := (lines.map fun l => l.1.length).foldr max 0
  { b1 with
    output := b1.output ++
      format b1.minwidth b1.padding b1.padchar b1.cell.text fuel [] lines,
    lines := [], line := [], cell := ⟨[], 0, false⟩, unmeasured := [],
    endChar := '\x00' }

/-- The method `Flush`. -/
def Writer.Flush (b : Writer) : Writer := b.flushNoDefers

/-- One round of the loop of `Write`, which appends the text between two
special bytes as one slice where this round appends its byte at once. Outside
an escaped segment a tab, vertical tab, newline or form feed ends the cell
and the byte `Escape` opens an escaped segment; inside one only the byte
`endChar` is special and closes it. -/
def Writer.writeChar (b : Writer) (ch : Char) : Writer :=
  if b.endChar = '\x00' then
    if ch = '\t' ∨ ch = '\x0b' ∨ ch = '\n' ∨ ch = '\x0c' then
      let r := b.updateWidth.terminateCell (decide (ch = '\t'))
      if ch = '\n' ∨ ch = '\x0c' then
        let b2 := r.1.addLine
        if ch = '\x0c' ∨ r.2 = 1 then b2.flushNoDefers else b2
      else r.1
    else if ch = Escape then
      (b.updateWidth.append [ch]).startEscape Escape
    else b.append [ch]
  else
    if ch = b.endChar then (b.append [ch]).endEscape
    else b.append [ch]

/-- The method `Write`. -/
def Writer.Write (b : Writer) (buf : List Char) : Writer :=
  buf.foldl Writer.writeChar b

/-! ## Rendering -/

/-- The Go function `strconv.Itoa`. -/
def Itoa (i : Int) : String :=
  match i with
  | Int.ofNat n => ⟨Nat.toDigits 10 n⟩
  | Int.negSucc n => ⟨'-' :: Nat.toDigits 10 (n + 1)⟩

/-- The text `fmt.Sprintf(listItemFmt, a, b)` with `listItemFmt = "%s\t%s\n"`. -/
def listItemFmt (a b : String) : String :=
  a ++ "\t" ++ b ++ "\n"

/-- The call `fmt.Fprintf(writer, listItemFmt, a, b)`: the formatted text is
handed to the writer in one `Write`. -/
def Fprintf (writer : Writer) (a b : String) : Writer :=
  writer.Write (listItemFmt a b).data

/-- The Go function `printTable`: the text of `out` after the call. -/
def printTable (out : String) (ztacks : List stack) : String :=
  let writer := NewWriter out.data 0 4 2 ' '
  let sorted := sortSort ztacks
  let writer := Fprintf writer "NAME" "SERVICES"
  let writer :=
    sorted.foldl (fun w stack => Fprintf w stack.Name (Itoa stack.Services)) writer
  ⟨writer.Flush.output⟩

/-- The command environment `command.DockerCli`: its API client and the text
written so far to its output stream. -/
structure DockerCli where
  Client : APIClient
  Out : String

/-- The Go function `runList`: the returned error and the environment after
the call. -/
def runList (order : MapOrder) (LabelNamespace : String)
    (dockerCli : DockerCli) (_opts : listOptions) : Option GoError × DockerCli :=
  let r := getStacks order LabelNamespace dockerCli.Client
  match r.1.2 with
  | some err => (some err, { dockerCli with Client := r.2 })
  | none => (none, { Client := r.2, Out := printTable dockerCli.Out r.1.1 })

/-! ## Specification vocabulary -/

/-- The number of records of `services` whose namespace label has the value `k`. -/
def labelCount (LabelNamespace : String) (services : List Service) (k : String) : Nat :=
  services.countP (fun s => decide (s.namespaceLabel LabelNamespace = some k))

/-- The entry of a key after `n` more services with that key were counted. -/
def bump (o : Option stack) (k : String) (n : Nat) : Option stack :=
  match o with
  | some v => some { v with Services := v.Services + n }
  | none => if n = 0 then none else some ⟨k, n⟩

/-- A text without tab, vertical tab, newline and form feed: the characters
that end a tabwriter cell. -/
def NoCellEnd (t : List Char) : Prop :=
  ∀ c ∈ t, c ≠ '\t' ∧ c ≠ '\x0b' ∧ c ≠ '\n' ∧ c ≠ '\x0c'

instance (t : List Char) : Decidable (NoCellEnd t) := by
  unfold NoCellEnd; infer_instance

/-- A text without tab, vertical tab, newline, form feed and the escape byte
`0xff`: the characters that the tabwriter does not pass on as they are. -/
def IsClean (t : List Char) : Prop :=
  ∀ c ∈ t, c ≠ '\t' ∧ c ≠ '\x0b' ∧ c ≠ '\n' ∧ c ≠ '\x0c' ∧ c ≠ Escape

/-- The two cells of a line `a\tb\n`. -/
def rowCells (a b : String) : List cell :=
  [⟨a.data, RuneCount a.data, true⟩, ⟨b.data, RuneCount b.data, false⟩]

/-- The buffered lines of a table: one two-cell line per row, none of them
the last buffered line. -/
def rowLines (rows : List (String × String)) : List (List cell × Bool) :=
  rows.map fun r => (rowCells r.1 r.2, false)

/-- The text of the rows of a table whose first column has the width `w`. -/
def rowsText (padchar : Char) (w : Int) (rows : List (String × String)) : List Char :=
  (rows.map fun r =>
    r.1.data ++ List.replicate (w - RuneCount r.1.data).toNat padchar ++ r.2.data
      ++ ['\n']).flatten

/-- The width `W` of the first column: the number of runes of the longest
first cell, the header `NAME` included. -/
def tableWidth (rows : List stack) : Nat :=
  (rows.map fun s => RuneCount s.Name.data).foldl max (RuneCount "NAME".data)

/-- One line of the table: the first cell, spaces up to the width `W + 2`,
the second cell, a newline. -/
def tableLine (W : Nat) (a b : String) : List Char :=
  a.data ++ List.replicate (W + 2 - RuneCount a.data) ' ' ++ b.data ++ ['\n']

/-- The table as the specification words it: the header line, then one line
per summary with its name and the decimal text of its count. -/
def tableText (rows : List stack) : List Char :=
  tableLine (tableWidth rows) "NAME" "SERVICES" ++
    (rows.map fun s => tableLine (tableWidth rows) s.Name (Itoa s.Services)).flatten

/-- The rows handed to the writer by `printTable`: the header and one row per summary. -/
def tableRows (rows : List stack) : List (String × String) :=
  ("NAME", "SERVICES") :: rows.map fun s => (s.Name, Itoa s.Services)

/-- A service record with the identifier `id` and the single label `key = value`. -/
def labelled (key id value : String) : Service := ⟨id, ⟨[(key, value)]⟩⟩

/-- Three services labelled `web` and two labelled `api`. -/
def webApiServices : List Service :=
  [labelled "ns" "1" "web", labelled "ns" "2" "api", labelled "ns" "3" "web",
   labelled "ns" "4" "api", labelled "ns" "5" "web"]

/-- A text contains a part when it is the part between some prefix and suffix. -/
def Contains (text part : String) : Prop :=
  ∃ pre post : String, text = pre ++ part ++ post

instance (t : List Char) : Decidable (IsClean t) := by
  unfold IsClean; infer_instance

/-- The number a text of decimal digits denotes. -/
def decimalValue (t : List Char) : Nat :=
  t.foldl (fun acc c => 10 * acc + (c.toNat - 48)) 0

/-- The canonical base-10 text of `n`: decimal digits only, denoting `n`,
with a leading zero only for the text `0` itself. -/
def IsCanonicalDecimal (t : List Char) (n : Nat) : Prop :=
  (∀ c ∈ t, c.isDigit = true) ∧ decimalValue t = n ∧ (t.head? = some '0' → t = ['0'])

/-- The services of the specification's example: `shop`, `shop`, `cms`. -/
def shopCmsServices (key : String) : List Service :=
  [labelled key "1" "shop", labelled key "2" "shop", labelled key "3" "cms"]

/-- The total of the `Services` fields of the entries of a map. -/
def GoMap.total (m : GoMap) : Int := (m.map fun p => p.2.Services).sum

/-- The text of the header line when `k` spaces separate its two cells. -/
def headerLine (k : Nat) : List Char :=
  "NAME".data ++ List.replicate k ' ' ++ "SERVICES".data ++ ['\n']

/-- The state of the writer between the write of the header and the end of
`printTable`, for the text `out` that the stream held before the call: the
header is the first buffered line and nothing has been handed to the stream,
or what has been handed to the stream begins with the header line. -/
def HeaderFirst (out : List Char) (b : Writer) : Prop :=
  b.padchar = ' ' ∧
    ((b.output = out ∧ ∃ more, b.lines = rowCells "NAME" "SERVICES" :: more) ∨
      ∃ k rest, b.output = out ++ (headerLine k ++ rest))

/-! ## The command -/

/-- The part of `cobra.Command` that `newListCommand` fills in. `Args` checks
the positional arguments, `RunE` runs the command on the environment. -/
structure Command where
  Use : String
  Aliases : List String
  Short : String
  Args : List String → Option GoError
  RunE : DockerCli → List String → Option GoError × DockerCli

/-- Modelled from the spec: the argument check `cli.NoArgs`, defined in
`cli/required.go`, outside `list.go`. "Any positional
argument supplied is a usage error": no error for an empty argument list,
the usage error `usage` otherwise. -/
def NoArgs (usage : GoError) (args : List String) : Option GoError :=
  if args.length = 0 then none else some usage

/-- The Go function `newListCommand`. -/
def newListCommand (order : MapOrder) (LabelNamespace : String)
    (usage : GoError) : Command :=
  let opts : listOptions := {}
  { Use := "ls"
    Aliases := ["list"]
    Short := "List stacks"
    Args := NoArgs usage
    RunE := fun dockerCli _args => runList order LabelNamespace dockerCli opts }

/-- Modelled from the spec: the way the command framework (`cobra`, outside
`list.go`) runs a command. A usage error "rejects the invocation
before aggregation begins": the arguments are checked with `Args` first, and
`RunE` runs only when the check returns no error. -/
def Command.execute (c : Command) (dockerCli : DockerCli) (args : List String) :
    Option GoError × DockerCli :=
  match c.Args args with
  | some err => (some err, dockerCli)
  | none => c.RunE dockerCli args

/-! ## Lemmas -/

theorem lookup_cons_ite {β : Type} (k a : String) (b : β) (m : List (String × β)) :
    List.lookup k ((a, b) :: m) = if k = a then some b else List.lookup k m := by
  by_cases h : k = a
  · subst h; simp [List.lookup]
  · have : (k == a) = false := by simpa using h
    simp [List.lookup, this, h]

theorem GoMap.get_nil (k : String) : GoMap.get [] k = none := rfl

theorem GoMap.get_cons (k a : String) (b : stack) (m : GoMap) :
    GoMap.get ((a, b) :: m) k = if k = a then some b else GoMap.get m k :=
  lookup_cons_ite k a b m

theorem GoMap.get_set (m : GoMap) (k k' : String) (v : stack) :
    GoMap.get (GoMap.set m k v) k' = if k' = k then some v else GoMap.get m k' := by
  induction m with
  | nil => simp [GoMap.set, GoMap.get_cons, GoMap.get_nil]
  | cons p m ih =>
    obtain ⟨a, b⟩ := p
    by_cases hak : a = k
    · subst hak
      by_cases h : k' = a <;> simp [GoMap.set, GoMap.get_cons, h]
    · by_cases h : k' = k
      · subst h
        have : ¬ k' = a := fun e => hak e.symm
        simp [GoMap.set, GoMap.get_cons, hak, this, ih]
      · by_cases h2 : k' = a <;> simp [GoMap.set, GoMap.get_cons, hak, h, h2, ih]

theorem GoMap.keys_set (m : GoMap) (k : String) (v : stack) :
    (GoMap.set m k v).map Prod.fst =
      if k ∈ m.map Prod.fst then m.map Prod.fst else m.map Prod.fst ++ [k] := by
  induction m with
  | nil => simp [GoMap.set]
  | cons p m ih =>
    obtain ⟨a, b⟩ := p
    by_cases hak : a = k
    · subst hak; simp [GoMap.set]
    · have hka : ¬ k = a := fun e => hak e.symm
      by_cases hm : k ∈ m.map Prod.fst
      · simp only [GoMap.set, hak, if_false, List.map_cons, ih, hm, if_true, List.mem_cons, or_true]
      · simp only [GoMap.set, hak, if_false, List.map_cons, ih, hm, List.mem_cons, hka, or_self,
          List.cons_append]

theorem GoMap.nodup_set (m : GoMap) (k : String) (v : stack)
    (h : (m.map Prod.fst).Nodup) : ((GoMap.set m k v).map Prod.fst).Nodup := by
  rw [GoMap.keys_set]
  split
  · exact h
  · rename_i hk
    exact List.Nodup.append h (List.nodup_singleton k) (by simpa using hk)

theorem GoMap.get_eq_some_iff (m : GoMap) (h : (m.map Prod.fst).Nodup) (k : String) (v : stack) :
    GoMap.get m k = some v ↔ (k, v) ∈ m := by
  induction m with
  | nil => simp [GoMap.get]
  | cons p m ih =>
    obtain ⟨a, b⟩ := p
    simp only [List.map_cons, List.nodup_cons] at h
    have ih := ih h.2
    rw [GoMap.get_cons]
    by_cases hka : k = a
    · subst hka
      simp only [if_true, List.mem_cons, Prod.mk.injEq, true_and, Option.some.injEq]
      constructor
      · intro e; exact Or.inl e.symm
      · rintro (e | e)
        · exact e.symm
        · exact absurd (List.mem_map_of_mem Prod.fst e) h.1
    · simp [ih, hka]

theorem labelCount_nil (L k : String) : labelCount L [] k = 0 := rfl

theorem labelCount_cons (L k : String) (s : Service) (services : List Service) :
    labelCount L (s :: services) k =
      labelCount L services k + (if s.namespaceLabel L = some k then 1 else 0) := by
  simp [labelCount, List.countP_cons]

theorem getStacksLoop_ok (L : String) (services : List Service) :
    ∀ m : GoMap, (∀ s ∈ services, s.namespaceLabel L ≠ none) →
      ∃ m', getStacksLoop L services m = .ok m' ∧
        ((m.map Prod.fst).Nodup → (m'.map Prod.fst).Nodup) ∧
        ∀ k, GoMap.get m' k = bump (GoMap.get m k) k (labelCount L services k) := by
  induction services with
  | nil =>
    intro m _
    refine ⟨m, rfl, id, fun k => ?_⟩
    cases h : GoMap.get m k <;> simp [bump, labelCount_nil]
  | cons s services ih =>
    intro m hall
    have hs := hall s (List.mem_cons_self _ _)
    have hrest : ∀ t ∈ services, t.namespaceLabel L ≠ none :=
      fun t ht => hall t (List.mem_cons_of_mem _ ht)
    obtain ⟨name, hname⟩ := Option.ne_none_iff_exists'.mp hs
    cases hz : GoMap.get m name with
    | none =>
      obtain ⟨m', hm', hnd, hget⟩ := ih (m.set name ⟨name, 1⟩) hrest
      refine ⟨m', ?_, fun h => hnd (GoMap.nodup_set m name _ h), fun k => ?_⟩
      · simp only [getStacksLoop, hname, hz]; exact hm'
      · rw [hget, GoMap.get_set, labelCount_cons, hname]
        by_cases hk : k = name
        · subst hk
          simp [hz, bump]
          ring
        · have : ¬ name = k := fun e => hk e.symm
          simp [hk, this]
    | some z =>
      obtain ⟨m', hm', hnd, hget⟩ := ih (m.set name { z with Services := z.Services + 1 }) hrest
      refine ⟨m', ?_, fun h => hnd (GoMap.nodup_set m name _ h), fun k => ?_⟩
      · simp only [getStacksLoop, hname, hz]; exact hm'
      · rw [hget, GoMap.get_set, labelCount_cons, hname]
        by_cases hk : k = name
        · subst hk
          simp [hz, bump]
          ring
        · have : ¬ name = k := fun e => hk e.symm
          simp [hk, this]

theorem Writer.writeChar_clean (b : Writer) (ch : Char) (he : b.endChar = '\x00')
    (h : ch ≠ '\t' ∧ ch ≠ '\x0b' ∧ ch ≠ '\n' ∧ ch ≠ '\x0c' ∧ ch ≠ Escape) :
    b.writeChar ch = b.append [ch] := by
  obtain ⟨h1, h2, h3, h4, h5⟩ := h
  simp [Writer.writeChar, he, h1, h2, h3, h4, h5]

theorem Writer.append_append (b : Writer) (s t : List Char) :
    (b.append s).append t = b.append (s ++ t) := by
  simp [Writer.append]

theorem Writer.Write_clean (t : List Char) (ht : IsClean t) :
    ∀ b : Writer, b.endChar = '\x00' → b.Write t = b.append t := by
  induction t with
  | nil => intro b _; simp [Writer.Write, Writer.append]
  | cons c t ih =>
    intro b he
    have hc := ht c (List.mem_cons_self _ _)
    have ht' : IsClean t := fun d hd => ht d (List.mem_cons_of_mem _ hd)
    have := ih ht' (b.writeChar c) (by rw [Writer.writeChar_clean b c he hc]; exact he)
    simp only [Writer.Write, List.foldl_cons] at this ⊢
    rw [this, Writer.writeChar_clean b c he hc, Writer.append_append]
    rfl

theorem Writer.Write_append (b : Writer) (s t : List Char) :
    b.Write (s ++ t) = (b.Write s).Write t := by
  simp [Writer.Write, List.foldl_append]

theorem Writer.Write_tab (b : Writer) (he : b.endChar = '\x00') :
    b.Write ['\t'] = (b.updateWidth.terminateCell true).1 := by
  simp [Writer.Write, Writer.writeChar, he]

theorem Writer.Write_newline (b : Writer) (he : b.endChar = '\x00') (h : b.line ≠ []) :
    b.Write ['\n'] = (b.updateWidth.terminateCell false).1.addLine := by
  simp [Writer.Write, Writer.writeChar, Writer.terminateCell, Writer.updateWidth, he, h]

theorem Fprintf_clean (b : Writer) (a c : String) (ha : IsClean a.data) (hc : IsClean c.data)
    (hline : b.line = []) (hcell : b.cell = ⟨[], 0, false⟩) (hun : b.unmeasured = [])
    (he : b.endChar = '\x00') :
    Fprintf b a c = { b with lines := b.lines ++ [rowCells a c] } := by
  have hdata : (listItemFmt a c).data = a.data ++ (['\t'] ++ (c.data ++ ['\n'])) := by
    simp [listItemFmt, String.data_append]
  obtain ⟨o, mw, tw, pd, pc, ls, l, cl, un, ec⟩ := b
  simp only at hline hcell hun he
  subst hline hcell hun he
  rw [Fprintf, hdata, Writer.Write_append, Writer.Write_append, Writer.Write_append,
    Writer.Write_clean _ ha _ rfl, Writer.Write_tab _ rfl, Writer.Write_clean _ hc _ rfl,
    Writer.Write_newline _ rfl]
  · simp [rowCells, Writer.append, Writer.updateWidth, Writer.terminateCell, Writer.addLine]
  · simp [Writer.append, Writer.updateWidth, Writer.terminateCell]

theorem cell.size_eq_zero_iff (c : cell) : c.size = 0 ↔ c.text = [] := by
  simp [cell.size]

theorem splitRuns_const {α : Type} (p : α → Bool) (v : Bool) (l : List α)
    (h : ∀ x ∈ l, p x = v) (hne : l ≠ []) : splitRuns p l = [(v, l)] := by
  induction l with
  | nil => exact absurd rfl hne
  | cons x l ih =>
    have hx := h x (List.mem_cons_self _ _)
    cases l with
    | nil => simp [splitRuns, hx]
    | cons y l =>
      have := ih (fun z hz => h z (List.mem_cons_of_mem _ hz)) (by simp)
      rw [splitRuns, this]
      simp [hx]

theorem splitRuns_block_then {α : Type} (p : α → Bool) (l : List α) (y : α)
    (h : ∀ x ∈ l, p x = true) (hne : l ≠ []) (hy : p y = false) :
    splitRuns p (l ++ [y]) = [(true, l), (false, [y])] := by
  induction l with
  | nil => exact absurd rfl hne
  | cons x l ih =>
    have hx := h x (List.mem_cons_self _ _)
    cases l with
    | nil => simp [splitRuns, hx, hy]
    | cons z l =>
      have := ih (fun w hw => h w (List.mem_cons_of_mem _ hw)) (by simp)
      rw [List.cons_append, splitRuns, this]
      simp [hx]

theorem writeCells_two (padchar : Char) (w : Int) (a c : List Char) (wa wc : Int) :
    writeCells padchar [w] 0 [⟨a, wa, true⟩, ⟨c, wc, false⟩] =
      a ++ List.replicate (w - wa).toNat padchar ++ c := by
  simp only [writeCells, cell.size_eq_zero_iff, writePadding]
  cases a <;> cases c <;> simp

theorem writeLines_rowLines (padchar : Char) (pending : List Char) (w : Int)
    (rows : List (String × String)) :
    writeLines padchar pending [w] (rowLines rows) = rowsText padchar w rows := by
  induction rows with
  | nil => simp [rowLines, rowsText, writeLines]
  | cons r rows ih =>
    simp only [rowLines, List.map_cons, writeLines, rowsText, List.flatten_cons] at ih ⊢
    rw [ih]
    rw [rowCells, writeCells_two]
    simp

theorem format_rowLines (minwidth padding : Nat) (padchar : Char) (fuel : Nat)
    (rows : List (String × String)) (hne : rows ≠ []) :
    format minwidth padding padchar [] (fuel + 1) [] (rowLines rows ++ [([], true)]) =
      rowsText padchar (columnWidth minwidth padding 0 (rowLines rows)) rows := by
  have hrl : rowLines rows ≠ [] := by simpa [rowLines] using hne
  have h0 : ∀ x ∈ rowLines rows, hasColumn 0 x = true := by
    intro x hx
    simp only [rowLines, List.mem_map] at hx
    obtain ⟨r, _, rfl⟩ := hx
    simp [hasColumn, rowCells]
  have h1 : ∀ x ∈ rowLines rows, hasColumn 1 x = false := by
    intro x hx
    simp only [rowLines, List.mem_map] at hx
    obtain ⟨r, _, rfl⟩ := hx
    simp [hasColumn, rowCells]
  have hinner : ∀ w, format minwidth padding padchar [] fuel [w] (rowLines rows) =
      rowsText padchar w rows := by
    intro w
    cases fuel with
    | zero => simp [format, writeLines_rowLines]
    | succ n =>
      simp only [format, List.length_singleton]
      rw [splitRuns_const (hasColumn 1) false _ h1 hrl]
      simp [writeLines_rowLines]
  simp only [format, List.length_nil]
  rw [splitRuns_block_then (hasColumn 0) _ _ h0 hrl (by simp [hasColumn])]
  simp [hinner, writeLines, writeCells]

theorem digitChar_clean (d : Nat) (h : d < 10) :
    (Nat.digitChar d).isDigit = true := by
  revert d; decide

theorem isDigit_clean (c : Char) (h : c.isDigit = true) :
    c ≠ '\t' ∧ c ≠ '\x0b' ∧ c ≠ '\n' ∧ c ≠ '\x0c' ∧ c ≠ Escape := by
  refine ⟨?_, ?_, ?_, ?_, ?_⟩ <;> rintro rfl <;> revert h <;> decide

theorem toDigitsCore_isDigit (fuel : Nat) :
    ∀ (n : Nat) (ds : List Char), (∀ c ∈ ds, c.isDigit = true) →
      ∀ c ∈ Nat.toDigitsCore 10 fuel n ds, c.isDigit = true := by
  induction fuel with
  | zero => intro n ds h; simpa [Nat.toDigitsCore] using h
  | succ fuel ih =>
    intro n ds h
    have hd : ∀ c ∈ Nat.digitChar (n % 10) :: ds, c.isDigit = true := by
      intro c hc
      rcases List.mem_cons.mp hc with rfl | hc
      · exact digitChar_clean _ (Nat.mod_lt _ (by decide))
      · exact h c hc
    simp only [Nat.toDigitsCore]
    split
    · exact hd
    · exact ih _ _ hd

theorem toDigits_isDigit (n : Nat) : ∀ c ∈ Nat.toDigits 10 n, c.isDigit = true :=
  toDigitsCore_isDigit _ n [] (by simp)

theorem Itoa_clean (i : Int) : IsClean (Itoa i).data := by
  intro c hc
  cases i with
  | ofNat n => exact isDigit_clean c (toDigits_isDigit n c hc)
  | negSucc n =>
    simp only [Itoa, List.mem_cons] at hc
    rcases hc with rfl | hc
    · decide
    · exact isDigit_clean c (toDigits_isDigit _ c hc)

theorem getElem_adjacent (A : List stack) (y x : stack) (R : List stack) :
    (A ++ y :: x :: R)[A.length]? = some y ∧ (A ++ y :: x :: R)[A.length + 1]? = some x := by
  induction A with
  | nil => simp
  | cons a A ih => simpa using ih

theorem set_adjacent (A : List stack) (y x u v : stack) (R : List stack) :
    ((A ++ y :: x :: R).set (A.length + 1) u).set A.length v = A ++ v :: u :: R := by
  induction A with
  | nil => simp
  | cons a A ih => simp [ih]

theorem byName.Less_adjacent (A : List stack) (y x : stack) (R : List stack) :
    byName.Less (A ++ y :: x :: R) (A.length + 1) A.length =
      decide (x.Name.data < y.Name.data) := by
  obtain ⟨h0, h1⟩ := getElem_adjacent A y x R
  simp only [byName.Less, h0, h1]

theorem byName.Swap_adjacent (A : List stack) (y x : stack) (R : List stack) :
    byName.Swap (A ++ y :: x :: R) (A.length + 1) A.length = A ++ x :: y :: R := by
  obtain ⟨h0, h1⟩ := getElem_adjacent A y x R
  simp only [byName.Swap, h0, h1]
  exact set_adjacent A y x y x R

theorem nameLE_trans {a b c : stack} (h₁ : nameLE a b) (h₂ : nameLE b c) : nameLE a c := by
  unfold nameLE at *
  exact not_lt.mpr (le_trans (not_lt.mp h₁) (not_lt.mp h₂))

theorem insertionSortInner_spec (j : Nat) :
    ∀ (A : List stack) (x : stack) (B T : List stack), A.length = j →
      A.Pairwise nameLE → B.Pairwise nameLE →
      (∀ b ∈ B, x.Name.data < b.Name.data) → (∀ a ∈ A, ∀ b ∈ B, nameLE a b) →
      ∃ A', insertionSortInner 0 j (A ++ x :: B ++ T) = A' ++ T ∧
        A'.Perm (A ++ x :: B) ∧ A'.Pairwise nameLE := by
  induction j with
  | zero =>
    intro A x B T hlen _ hB hx _
    have hA : A = [] := List.length_eq_zero.mp hlen
    subst hA
    refine ⟨x :: B, by simp [insertionSortInner], List.Perm.refl _, ?_⟩
    exact List.pairwise_cons.mpr ⟨fun b hb => not_lt.mpr (le_of_lt (hx b hb)), hB⟩
  | succ k ih =>
    intro A x B T hlen hA hB hx hAB
    rcases List.eq_nil_or_concat A with hnil | ⟨A0, y, hcat⟩
    · subst hnil; simp at hlen
    rw [List.concat_eq_append] at hcat
    subst hcat
    have hk : A0.length = k := by simpa using hlen
    subst hk
    have hdata : A0 ++ [y] ++ x :: B ++ T = A0 ++ y :: x :: (B ++ T) := by simp
    have hA' := List.pairwise_append.mp hA
    rw [hdata, insertionSortInner, byName.Less_adjacent, byName.Swap_adjacent]
    by_cases hlt : x.Name.data < y.Name.data
    · have hcond : A0.length + 1 > 0 ∧ decide (x.Name.data < y.Name.data) = true := by
        simp [hlt]
      rw [if_pos hcond]
      obtain ⟨A', hrun, hperm, hsorted⟩ := ih A0 x (y :: B) T rfl hA'.1
        (List.pairwise_cons.mpr ⟨fun b hb => hAB y (by simp) b hb, hB⟩)
        (by
          intro b hb
          rcases List.mem_cons.mp hb with rfl | hb
          · exact hlt
          · exact hx b hb)
        (by
          intro a ha b hb
          rcases List.mem_cons.mp hb with rfl | hb
          · exact hA'.2.2 a ha _ (by simp)
          · exact hAB a (by simp [ha]) b hb)
      refine ⟨A', ?_, ?_, hsorted⟩
      · simpa using hrun
      · refine hperm.trans ?_
        simp only [List.append_assoc, List.singleton_append]
        exact List.Perm.append_left A0 (List.Perm.swap y x B)
    · have hcond : ¬ (A0.length + 1 > 0 ∧ decide (x.Name.data < y.Name.data) = true) := by
        simp [hlt]
      rw [if_neg hcond]
      refine ⟨A0 ++ [y] ++ x :: B, by simp, List.Perm.refl _, ?_⟩
      refine List.pairwise_append.mpr ⟨hA, ?_, ?_⟩
      · exact List.pairwise_cons.mpr ⟨fun b hb => not_lt.mpr (le_of_lt (hx b hb)), hB⟩
      · intro a ha c hc
        rcases List.mem_cons.mp hc with rfl | hc
        · have hyc : nameLE y c := hlt
          rcases List.mem_append.mp ha with ha0 | hay
          · exact nameLE_trans (hA'.2.2 a ha0 y (by simp)) hyc
          · simp only [List.mem_singleton] at hay
            subst hay; exact hyc
        · exact hAB a ha c hc

theorem insertionSortLoop_spec (k : Nat) :
    ∀ (A T : List stack), T.length = k → A.Pairwise nameLE →
      (insertionSortLoop 0 k A.length (A ++ T)).Perm (A ++ T) ∧
        (insertionSortLoop 0 k A.length (A ++ T)).Pairwise nameLE := by
  induction k with
  | zero =>
    intro A T hlen hA
    have hT : T = [] := List.length_eq_zero.mp hlen
    subst hT
    simpa [insertionSortLoop] using hA
  | succ k ih =>
    intro A T hlen hA
    cases T with
    | nil => simp at hlen
    | cons x T =>
      have hk : T.length = k := by simpa using hlen
      obtain ⟨A', hrun, hperm, hsorted⟩ :=
        insertionSortInner_spec A.length A x [] T rfl hA List.Pairwise.nil
          (by simp) (by simp)
      have hlenA' : A'.length = A.length + 1 := by simpa using hperm.length_eq
      have hrun' : insertionSortInner 0 A.length (A ++ x :: T) = A' ++ T := by
        simpa using hrun
      rw [insertionSortLoop, hrun', ← hlenA']
      obtain ⟨h1, h2⟩ := ih A' T hk hsorted
      refine ⟨h1.trans ?_, h2⟩
      have : (A' ++ T).Perm ((A ++ [x]) ++ T) := List.Perm.append_right T (by simpa using hperm)
      simpa using this

theorem sortSort_spec (data : List stack) :
    (sortSort data).Perm data ∧ (sortSort data).Pairwise nameLE := by
  cases data with
  | nil => simp [sortSort, insertionSort, insertionSortLoop, byName.Len]
  | cons x T =>
    have := insertionSortLoop_spec T.length [x] T rfl (List.pairwise_singleton _ _)
    simpa [sortSort, insertionSort, byName.Len] using this

theorem foldl_Fprintf (rows : List stack) (hrows : ∀ s ∈ rows, IsClean s.Name.data) :
    ∀ b : Writer, b.line = [] → b.cell = ⟨[], 0, false⟩ → b.unmeasured = [] →
      b.endChar = '\x00' →
      rows.foldl (fun w s => Fprintf w s.Name (Itoa s.Services)) b =
        { b with lines := b.lines ++ rows.map fun s => rowCells s.Name (Itoa s.Services) } := by
  induction rows with
  | nil => intro b _ _ _ _; simp
  | cons s rows ih =>
    intro b hl hc hu he
    have hs := hrows s (List.mem_cons_self _ _)
    have := ih (fun t ht => hrows t (List.mem_cons_of_mem _ ht))
      { b with lines := b.lines ++ [rowCells s.Name (Itoa s.Services)] } hl hc hu he
    rw [List.foldl_cons, Fprintf_clean b _ _ hs (Itoa_clean _) hl hc hu he, this]
    simp

theorem foldl_max_add (l : List Nat) (p : Nat) :
    ∀ init, (l.map (· + p)).foldl max (init + p) = l.foldl max init + p := by
  induction l with
  | nil => intro init; rfl
  | cons x l ih =>
    intro init
    simp only [List.map_cons, List.foldl_cons]
    rw [← ih (max init x)]
    congr 1
    simp only [max_def]; split <;> split <;> omega

theorem foldl_max_cast (l : List Nat) :
    ∀ init : Nat, (l.map (Nat.cast : Nat → Int)).foldl max (init : Int) =
      ((l.foldl max init : Nat) : Int) := by
  induction l with
  | nil => intro init; rfl
  | cons x l ih =>
    intro init
    simp only [List.map_cons, List.foldl_cons]
    rw [← ih (max init x), Nat.cast_max]

theorem columnWidth_rowLines (minwidth padding : Nat) (rows : List (String × String)) :
    columnWidth minwidth padding 0 (rowLines rows) =
      (((rows.map fun r => RuneCount r.1.data + padding).foldl max minwidth : Nat) : Int) := by
  rw [← foldl_max_cast]
  unfold columnWidth
  generalize (minwidth : Int) = init
  induction rows generalizing init with
  | nil => rfl
  | cons r rows ih =>
    simp only [rowLines, List.map_cons, List.foldl_cons] at ih ⊢
    rw [ih]
    congr 1
    simp only [rowCells, List.getD_cons_zero, max_def, Nat.cast_add]
    split <;> split <;> first | rfl | omega

theorem columnWidth_tableRows (rows : List stack) :
    columnWidth 0 2 0 (rowLines (tableRows rows)) = ((tableWidth rows + 2 : Nat) : Int) := by
  rw [columnWidth_rowLines, tableRows, List.map_cons, List.foldl_cons, tableWidth,
    ← foldl_max_add]
  simp [List.map_map, Function.comp_def]

theorem rowsText_tableRows (rows : List stack) :
    rowsText ' ' ((tableWidth rows + 2 : Nat) : Int) (tableRows rows) = tableText rows := by
  have hpad : ∀ a : String,
      (((tableWidth rows + 2 : Nat) : Int) - (RuneCount a.data : Int)).toNat =
        tableWidth rows + 2 - RuneCount a.data := by
    intro a; omega
  simp only [rowsText, tableRows, tableText, tableLine, List.map_cons, List.flatten_cons,
    List.map_map, Function.comp_def, hpad]

theorem printTable_eq (out : String) (ztacks : List stack)
    (h : ∀ s ∈ ztacks, IsClean s.Name.data) :
    printTable out ztacks = ⟨out.data ++ tableText (sortSort ztacks)⟩ := by
  have hs : ∀ s ∈ sortSort ztacks, IsClean s.Name.data :=
    fun s hs => h s ((sortSort_spec ztacks).1.mem_iff.mp hs)
  have hhdr : IsClean "NAME".data := by
    intro c hc; revert c; decide
  have hsrv : IsClean "SERVICES".data := by
    intro c hc; revert c; decide
  unfold printTable
  simp only
  rw [Fprintf_clean _ _ _ hhdr hsrv rfl rfl rfl rfl, foldl_Fprintf _ hs _ rfl rfl rfl rfl]
  simp only [Writer.Flush, Writer.flushNoDefers, NewWriter, cell.size, List.length_nil,
    lt_irrefl, if_false, List.nil_append]
  have hl : (List.map (fun l => (l, false))
      ([rowCells "NAME" "SERVICES"] ++
        List.map (fun s => rowCells s.Name (Itoa s.Services)) (sortSort ztacks)))
      = rowLines (tableRows (sortSort ztacks)) := by
    simp [rowLines, tableRows, List.map_map, Function.comp_def]
  rw [hl]
  have hfuel : ∃ n, (List.foldr max 0 (List.map (fun l => l.1.length)
      (rowLines (tableRows (sortSort ztacks)) ++ [(([] : List cell), true)]))) = n + 1 := by
    refine ⟨_, (Nat.succ_pred_eq_of_pos ?_).symm⟩
    simp [rowLines, tableRows, rowCells]
  obtain ⟨n, hn⟩ := hfuel
  rw [hn, format_rowLines _ _ _ _ _ (by simp [tableRows]), columnWidth_tableRows,
    rowsText_tableRows]

theorem splitRuns_subset {α : Type} (p : α → Bool) (l : List α) :
    ∀ r ∈ splitRuns p l, ∀ x ∈ r.2, x ∈ l := by
  induction l with
  | nil => intro r hr; simp [splitRuns] at hr
  | cons y l ih =>
    intro r hr x hx
    rw [splitRuns] at hr
    split at hr
    · simp only [List.mem_singleton] at hr
      subst hr
      simp only [List.mem_singleton] at hx
      subst hx
      exact List.mem_cons_self _ _
    · rename_i v run runs heq
      have ih' : ∀ r ∈ (v, run) :: runs, ∀ x ∈ r.2, x ∈ l := by rw [← heq]; exact ih
      split at hr
      · rcases List.mem_cons.mp hr with rfl | hr
        · rcases List.mem_cons.mp hx with rfl | hx
          · exact List.mem_cons_self _ _
          · exact List.mem_cons_of_mem _ (ih' (v, run) (List.mem_cons_self _ _) x hx)
        · exact List.mem_cons_of_mem _ (ih' r (List.mem_cons_of_mem _ hr) x hx)
      · rcases List.mem_cons.mp hr with rfl | hr
        · simp only [List.mem_singleton] at hx
          subst hx
          exact List.mem_cons_self _ _
        · exact List.mem_cons_of_mem _ (ih' r hr x hx)

/-- The recursion of `format` needs no more fuel than the number of cells of
the longest line beyond the current column: more fuel gives the same text. -/
theorem format_fuel_succ (minwidth padding : Nat) (padchar : Char) (pending : List Char)
    (fuel : Nat) :
    ∀ (widths : List Int) (lines : List (List cell × Bool)),
      (∀ l ∈ lines, l.1.length ≤ widths.length + fuel + 1) →
      format minwidth padding padchar pending (fuel + 1) widths lines =
        format minwidth padding padchar pending fuel widths lines := by
  induction fuel with
  | zero =>
    intro widths lines h
    have hcol : ∀ x ∈ lines, hasColumn widths.length x = false := by
      intro x hx
      have := h x hx
      simp only [hasColumn, decide_eq_false_iff_not]
      omega
    cases lines with
    | nil => simp [format, splitRuns, writeLines]
    | cons l lines =>
      simp only [format]
      rw [splitRuns_const _ false _ hcol (by simp)]
      simp
  | succ fuel ih =>
    intro widths lines h
    rw [format]
    conv_rhs => rw [format]
    congr 1
    apply List.map_congr_left
    intro r hr
    split
    · apply ih
      intro l hl
      have := h l (splitRuns_subset _ _ r hr l hl)
      simp only [List.length_append, List.length_singleton]
      omega
    · rfl

theorem format_fuel_enough (minwidth padding : Nat) (padchar : Char) (pending : List Char)
    (lines : List (List cell × Bool)) (extra : Nat) :
    format minwidth padding padchar pending
        ((lines.map fun l => l.1.length).foldr max 0 + extra) [] lines =
      format minwidth padding padchar pending
        ((lines.map fun l => l.1.length).foldr max 0) [] lines := by
  have hle : ∀ (ns : List Nat), ∀ n ∈ ns, n ≤ ns.foldr max 0 := by
    intro ns
    induction ns with
    | nil => intro n hn; simp at hn
    | cons a ns ih =>
      intro n hn
      rcases List.mem_cons.mp hn with rfl | hn
      · exact le_max_left _ _
      · exact le_trans (ih n hn) (le_max_right _ _)
  induction extra with
  | zero => rfl
  | succ k ih =>
    rw [← ih, ← Nat.add_assoc]
    apply format_fuel_succ
    intro l hl
    have hl' : l.1.length ≤ (lines.map fun l => l.1.length).foldr max 0 :=
      hle _ _ (List.mem_map_of_mem (fun l : List cell × Bool => l.1.length) hl)
    simp only [List.length_nil]
    omega

theorem getStacksLoop_error (L : String) (services : List Service) (s : Service) :
    ∀ m : GoMap, services.find? (fun t => decide (t.namespaceLabel L = none)) = some s →
      getStacksLoop L services m = .error (Errorf L s.ID) := by
  induction services with
  | nil => intro m h; simp at h
  | cons t services ih =>
    intro m h
    cases ht : t.namespaceLabel L with
    | none =>
      simp only [List.find?_cons, ht, decide_True, Option.some.injEq] at h
      subst h
      simp [getStacksLoop, ht]
    | some name =>
      simp only [List.find?_cons, ht] at h
      have h' : services.find? (fun t => decide (t.namespaceLabel L = none)) = some s := by
        simpa using h
      cases hz : GoMap.get m name <;> simp only [getStacksLoop, ht, hz] <;> exact ih _ h'

theorem exists_find_of_missing (L : String) (services : List Service)
    (h : ∃ s ∈ services, s.namespaceLabel L = none) :
    ∃ s, services.find? (fun t => decide (t.namespaceLabel L = none)) = some s := by
  obtain ⟨s, hs, hnone⟩ := h
  cases hf : services.find? (fun t => decide (t.namespaceLabel L = none)) with
  | some t => exact ⟨t, rfl⟩
  | none =>
    have := List.find?_eq_none.mp hf s hs
    simp [hnone] at this

/-- The summaries of a successful aggregation: the entries of a map with
unique keys that holds, for each label value, its name and its count. -/
theorem getStacks_ok (order : MapOrder) (L : String) (calls : Nat) (services : List Service)
    (hall : ∀ s ∈ services, s.namespaceLabel L ≠ none) :
    ∃ m : GoMap,
      (getStacks order L ⟨(services, none), calls⟩).1 = ((order.range m).map Prod.snd, none) ∧
      (m.map Prod.fst).Nodup ∧
      ∀ k v, (k, v) ∈ m ↔ labelCount L services k ≠ 0 ∧ v = ⟨k, labelCount L services k⟩ := by
  obtain ⟨m, hm, hnd, hget⟩ := getStacksLoop_ok L services [] hall
  have hnd' := hnd (by simp)
  refine ⟨m, ?_, hnd', fun k v => ?_⟩
  · simp [getStacks, APIClient.ServiceList, hm]
  · rw [← GoMap.get_eq_some_iff m hnd', hget, GoMap.get_nil]
    by_cases hc : labelCount L services k = 0
    · simp [bump, hc]
    · simp only [bump, hc, if_false, Option.some.injEq, ne_eq, not_false_eq_true, true_and]
      exact eq_comm

theorem getStacks_err_none (order : MapOrder) (L : String) (calls : Nat)
    (services : List Service) (hall : ∀ s ∈ services, s.namespaceLabel L ≠ none) :
    (getStacks order L ⟨(services, none), calls⟩).1.2 = none := by
  obtain ⟨m, hm, _, _⟩ := getStacks_ok order L calls services hall
  rw [hm]

theorem mem_getStacks_iff (order : MapOrder) (L : String) (calls : Nat) (services : List Service)
    (hall : ∀ s ∈ services, s.namespaceLabel L ≠ none) (s : stack) :
    s ∈ (getStacks order L ⟨(services, none), calls⟩).1.1 ↔
      labelCount L services s.Name ≠ 0 ∧ s.Services = (labelCount L services s.Name : Int) := by
  obtain ⟨m, hm, _, hmem⟩ := getStacks_ok order L calls services hall
  rw [hm]
  simp only [List.mem_map, Prod.exists, exists_eq_right]
  constructor
  · rintro ⟨k, hk⟩
    have := (hmem k s).mp ((order.perm m).mem_iff.mp hk)
    obtain ⟨h0, rfl⟩ := this
    exact ⟨h0, rfl⟩
  · rintro ⟨h0, h1⟩
    refine ⟨s.Name, (order.perm m).mem_iff.mpr ((hmem s.Name s).mpr ⟨h0, ?_⟩)⟩
    cases s; simp_all

theorem getStacks_names_nodup_of_labelled (order : MapOrder) (L : String) (calls : Nat)
    (services : List Service) (hall : ∀ s ∈ services, s.namespaceLabel L ≠ none) :
    ((getStacks order L ⟨(services, none), calls⟩).1.1.map fun s => s.Name).Nodup := by
  obtain ⟨m, hm, hnd, hmem⟩ := getStacks_ok order L calls services hall
  rw [hm]
  simp only [List.map_map]
  have hfst : (order.range m).map ((fun s : stack => s.Name) ∘ Prod.snd) =
      (order.range m).map Prod.fst := by
    apply List.map_congr_left
    rintro ⟨k, v⟩ hkv
    have := ((hmem k v).mp ((order.perm m).mem_iff.mp hkv)).2
    simp [this]
  rw [hfst]
  exact ((order.perm m).map Prod.fst).nodup_iff.mpr hnd

theorem labelCount_ne_zero_iff (L : String) (services : List Service) (k : String) :
    labelCount L services k ≠ 0 ↔ ∃ s ∈ services, s.namespaceLabel L = some k := by
  simp [labelCount, List.countP_eq_zero]

theorem getStacks_missing (order : MapOrder) (L : String) (calls : Nat) (services : List Service)
    (s : Service) (h : services.find? (fun t => decide (t.namespaceLabel L = none)) = some s) :
    (getStacks order L ⟨(services, none), calls⟩).1 = ([], some (Errorf L s.ID)) := by
  simp [getStacks, APIClient.ServiceList, getStacksLoop_error L services s [] h]

theorem data_lt_iff (a b : String) : a.data < b.data ↔ a < b := by
  rw [String.lt_iff_toList_lt]; rfl

theorem nameLE_iff (a b : stack) : nameLE a b ↔ a.Name ≤ b.Name := by
  unfold nameLE
  rw [data_lt_iff]
  exact not_lt

theorem sort_pairwise_le (l : List stack) :
    (sortSort l).Pairwise (fun a b => a.Name ≤ b.Name) :=
  (sortSort_spec l).2.imp (fun h => (nameLE_iff _ _).mp h)

theorem pairwise_lt_of_le (r : List stack) (hs : r.Pairwise (fun a b => a.Name ≤ b.Name))
    (hnd : (r.map fun s => s.Name).Nodup) : r.Pairwise (fun a b => a.Name < b.Name) := by
  have hne : r.Pairwise (fun a b => a.Name ≠ b.Name) := by
    simpa [List.Nodup, List.pairwise_map] using hnd
  exact (hs.and hne).imp (fun h => lt_of_le_of_ne h.1 h.2)

theorem sort_pairwise_lt (l : List stack) (hnd : (l.map fun s => s.Name).Nodup) :
    (sortSort l).Pairwise (fun a b => a.Name < b.Name) :=
  pairwise_lt_of_le _ (sort_pairwise_le l)
    ((((sortSort_spec l).1.map _).nodup_iff).mpr hnd)

/-- For summaries with distinct names the result of the sort is the only
rearrangement of the input that is in non-decreasing order of `Name`. -/
theorem sortSort_eq_of_sorted (l r : List stack) (hp : r.Perm l)
    (hs : r.Pairwise (fun a b => a.Name ≤ b.Name))
    (hnd : (l.map fun s => s.Name).Nodup) : sortSort l = r := by
  haveI : IsAntisymm stack (fun a b => a.Name < b.Name) :=
    ⟨fun a b h1 h2 => absurd h1 (lt_asymm h2)⟩
  exact List.eq_of_perm_of_sorted ((sortSort_spec l).1.trans hp.symm)
    (sort_pairwise_lt l hnd)
    (pairwise_lt_of_le r hs (((hp.map _).nodup_iff).mpr hnd))

/-- Every rearrangement of the input in non-decreasing order of `Name` shows
the names in the same sequence as the result of the sort: two such
rearrangements differ at most in the order of summaries with equal names. -/
theorem sorted_names_eq (l r : List stack) (hp : r.Perm l)
    (hs : r.Pairwise (fun a b => a.Name ≤ b.Name)) :
    r.map (fun s => s.Name) = (sortSort l).map (fun s => s.Name) := by
  apply List.eq_of_perm_of_sorted (r := (· ≤ ·))
  · exact (hp.trans (sortSort_spec l).1.symm).map _
  · exact List.pairwise_map.mpr hs
  · exact List.pairwise_map.mpr (sort_pairwise_le l)

theorem sort_unique (l₁ l₂ : List stack) (hp : l₁.Perm l₂)
    (hnd : (l₁.map fun s => s.Name).Nodup) : sortSort l₁ = sortSort l₂ :=
  sortSort_eq_of_sorted l₁ (sortSort l₂) ((sortSort_spec l₂).1.trans hp.symm)
    (sort_pairwise_le l₂) hnd

theorem getStacks_names_nodup (order : MapOrder) (L : String) (apiclient : APIClient) :
    ((getStacks order L apiclient).1.1.map fun s => s.Name).Nodup := by
  obtain ⟨⟨services, err⟩, calls⟩ := apiclient
  cases err with
  | some e => simp [getStacks, APIClient.ServiceList]
  | none =>
    by_cases h : ∃ s ∈ services, s.namespaceLabel L = none
    · obtain ⟨s, hs⟩ := exists_find_of_missing L services h
      rw [getStacks_missing order L calls services s hs]
      simp
    · exact getStacks_names_nodup_of_labelled order L calls services
        (fun s hs hn => h ⟨s, hs, hn⟩)

theorem printTable_congr (out : String) (l₁ l₂ : List stack)
    (h : sortSort l₁ = sortSort l₂) : printTable out l₁ = printTable out l₂ := by
  simp only [printTable, h]

theorem digitChar_value (d : Nat) (h : d < 10) : (Nat.digitChar d).toNat - 48 = d := by
  revert d; decide

theorem digitChar_ne_zero (d : Nat) (h : d < 10) (h0 : 0 < d) : Nat.digitChar d ≠ '0' := by
  revert d; decide

theorem toDigitsCore_value (fuel : Nat) :
    ∀ (n : Nat) (ds : List Char), n < fuel →
      (Nat.toDigitsCore 10 fuel n ds).foldl (fun acc c => 10 * acc + (c.toNat - 48)) 0 =
        ds.foldl (fun acc c => 10 * acc + (c.toNat - 48)) n := by
  induction fuel with
  | zero => intro n ds h; omega
  | succ fuel ih =>
    intro n ds h
    simp only [Nat.toDigitsCore]
    split
    · rename_i h0
      have hn : n % 10 = n := Nat.mod_eq_of_lt (by omega)
      have hv := digitChar_value _ (Nat.mod_lt n (by decide : 0 < 10))
      rw [hn] at hv
      simp only [List.foldl_cons, hv, Nat.mul_zero, Nat.zero_add, hn]
    · rename_i h0
      rw [ih _ _ (by omega)]
      simp only [List.foldl_cons, digitChar_value _ (Nat.mod_lt n (by decide))]
      congr 1
      omega

theorem toDigitsCore_head (fuel : Nat) :
    ∀ (n : Nat) (ds : List Char), 0 < n → n < fuel →
      (Nat.toDigitsCore 10 fuel n ds).head? ≠ some '0' := by
  induction fuel with
  | zero => intro n ds _ h; omega
  | succ fuel ih =>
    intro n ds hpos h
    simp only [Nat.toDigitsCore]
    split
    · rename_i h0
      have hn : n % 10 = n := Nat.mod_eq_of_lt (by omega)
      simp only [List.head?_cons, ne_eq, Option.some.injEq]
      exact digitChar_ne_zero _ (Nat.mod_lt n (by decide)) (by omega)
    · rename_i h0
      exact ih _ _ (Nat.pos_of_ne_zero h0) (by omega)

theorem toDigits_canonical (n : Nat) : IsCanonicalDecimal (Nat.toDigits 10 n) n := by
  refine ⟨toDigits_isDigit n, ?_, ?_⟩
  · simpa [decimalValue, Nat.toDigits] using toDigitsCore_value (n + 1) n [] (by omega)
  · intro h
    rcases Nat.eq_zero_or_pos n with rfl | hpos
    · rfl
    · exact absurd h (toDigitsCore_head (n + 1) n [] hpos (by omega))

theorem Itoa_eq (i : Int) :
    (Itoa i).data = (if i < 0 then ['-'] else []) ++ Nat.toDigits 10 i.natAbs := by
  cases i with
  | ofNat n => simp [Itoa]
  | negSucc n => simp [Itoa, Int.negSucc_lt_zero]

theorem Itoa_no_space (i : Int) : (Itoa i).data ≠ [] ∧ ∀ c ∈ (Itoa i).data, c ≠ ' ' := by
  constructor
  · cases i with
    | ofNat n =>
      have h := (toDigits_canonical n).2.1
      intro he
      simp only [Itoa] at he
      rw [he] at h
      cases n with
      | zero => simp [Nat.toDigits, Nat.toDigitsCore] at he
      | succ n => simp [decimalValue] at h
    | negSucc n => simp [Itoa]
  · intro c hc
    rw [Itoa_eq] at hc
    rcases List.mem_append.mp hc with hc | hc
    · split at hc
      · simp only [List.mem_singleton] at hc; subst hc; decide
      · simp at hc
    · have := toDigits_isDigit _ c hc
      rintro rfl
      revert this; decide

theorem le_foldl_max (l : List Nat) : ∀ init, init ≤ l.foldl max init ∧ ∀ x ∈ l, x ≤ l.foldl max init := by
  induction l with
  | nil => intro init; simp
  | cons y l ih =>
    intro init
    obtain ⟨h1, h2⟩ := ih (max init y)
    refine ⟨le_trans (le_max_left _ _) h1, ?_⟩
    intro x hx
    rcases List.mem_cons.mp hx with rfl | hx
    · exact le_trans (le_max_right _ _) h1
    · exact h2 x hx

theorem le_tableWidth (rows : List stack) :
    RuneCount "NAME".data ≤ tableWidth rows ∧
      ∀ s ∈ rows, RuneCount s.Name.data ≤ tableWidth rows := by
  obtain ⟨h1, h2⟩ := le_foldl_max (rows.map fun s => RuneCount s.Name.data)
    (RuneCount "NAME".data)
  exact ⟨h1, fun s hs => h2 _ (List.mem_map_of_mem (fun s : stack => RuneCount s.Name.data) hs)⟩

theorem sort_nil : sortSort [] = [] := rfl

theorem range_nil (order : MapOrder) : order.range [] = [] :=
  List.perm_nil.mp (order.perm [])

theorem getStacks_nil (order : MapOrder) (L : String) (calls : Nat) :
    (getStacks order L ⟨([], none), calls⟩).1 = ([], none) := by
  simp [getStacks, APIClient.ServiceList, getStacksLoop, range_nil]

theorem printTable_nil (out : String) :
    printTable out [] = out ++ "NAME  SERVICES\n" := by
  rw [printTable_eq out [] (by simp), sort_nil]
  rfl

theorem getStacks_shopCms (order : MapOrder) (L : String) (calls : Nat) :
    (getStacks order L ⟨(shopCmsServices L, none), calls⟩).1 =
      ((order.range [("shop", ⟨"shop", 2⟩), ("cms", ⟨"cms", 1⟩)]).map Prod.snd, none) := by
  have hne : ¬ "shop" = "cms" := by decide
  have hne' : ¬ "cms" = "shop" := by decide
  simp [getStacks, APIClient.ServiceList, getStacksLoop, shopCmsServices, labelled,
    Service.namespaceLabel, lookup_cons_ite, GoMap.get, GoMap.set, hne, hne']

theorem labelCount_eq_of_perm (L : String) (services₁ services₂ : List Service)
    (hp : (services₁.map fun s => s.namespaceLabel L).Perm
      (services₂.map fun s => s.namespaceLabel L)) (k : String) :
    labelCount L services₁ k = labelCount L services₂ k := by
  have h : ∀ services : List Service, labelCount L services k =
      (services.map fun s => s.namespaceLabel L).countP (fun o => decide (o = some k)) := by
    intro services
    simp [labelCount, List.countP_map, Function.comp_def]
  rw [h, h]
  exact hp.countP_eq _

theorem getStacks_perm (order₁ order₂ : MapOrder) (L : String) (calls₁ calls₂ : Nat)
    (services₁ services₂ : List Service)
    (hp : (services₁.map fun s => s.namespaceLabel L).Perm
      (services₂.map fun s => s.namespaceLabel L))
    (hall : ∀ s ∈ services₁, s.namespaceLabel L ≠ none) :
    (getStacks order₁ L ⟨(services₁, none), calls₁⟩).1.1.Perm
      (getStacks order₂ L ⟨(services₂, none), calls₂⟩).1.1 := by
  have hall₂ : ∀ s ∈ services₂, s.namespaceLabel L ≠ none := by
    intro s hs
    have : s.namespaceLabel L ∈ services₁.map fun s => s.namespaceLabel L :=
      hp.mem_iff.mpr (List.mem_map_of_mem _ hs)
    obtain ⟨t, ht, he⟩ := List.mem_map.mp this
    rw [← he]
    exact hall t ht
  have hnd₁ := (getStacks_names_nodup order₁ L ⟨(services₁, none), calls₁⟩).of_map
  have hnd₂ := (getStacks_names_nodup order₂ L ⟨(services₂, none), calls₂⟩).of_map
  rw [List.perm_ext_iff_of_nodup hnd₁ hnd₂]
  intro s
  rw [mem_getStacks_iff order₁ L calls₁ services₁ hall s,
    mem_getStacks_iff order₂ L calls₂ services₂ hall₂ s,
    labelCount_eq_of_perm L services₁ services₂ hp]

theorem GoMap.total_set_none (m : GoMap) (k : String) (v : stack)
    (h : GoMap.get m k = none) :
    GoMap.total (GoMap.set m k v) = GoMap.total m + v.Services := by
  induction m with
  | nil => simp [GoMap.set, GoMap.total]
  | cons p m ih =>
    obtain ⟨a, b⟩ := p
    rw [GoMap.get_cons] at h
    by_cases hka : k = a
    · simp [hka] at h
    · simp only [hka, if_false] at h
      have hak : ¬ a = k := fun e => hka e.symm
      have := ih h
      simp only [GoMap.total] at this ⊢
      simp only [GoMap.set, hak, if_false, List.map_cons, List.sum_cons, this]
      ring

theorem GoMap.total_set_some (m : GoMap) (k : String) (v z : stack)
    (h : GoMap.get m k = some z) :
    GoMap.total (GoMap.set m k v) = GoMap.total m - z.Services + v.Services := by
  induction m with
  | nil => simp [GoMap.get_nil] at h
  | cons p m ih =>
    obtain ⟨a, b⟩ := p
    rw [GoMap.get_cons] at h
    by_cases hka : k = a
    · simp only [hka, if_true, Option.some.injEq] at h
      subst h
      simp only [GoMap.total, GoMap.set, hka, if_true, List.map_cons, List.sum_cons]
      ring
    · simp only [hka, if_false] at h
      have hak : ¬ a = k := fun e => hka e.symm
      have := ih h
      simp only [GoMap.total] at this ⊢
      simp only [GoMap.set, hak, if_false, List.map_cons, List.sum_cons, this]
      ring

theorem getStacksLoop_total (L : String) (services : List Service) :
    ∀ m m' : GoMap, getStacksLoop L services m = .ok m' →
      GoMap.total m' = GoMap.total m + services.length := by
  induction services with
  | nil =>
    intro m m' h
    simp only [getStacksLoop, Except.ok.injEq] at h
    simp [h]
  | cons s services ih =>
    intro m m' h
    cases hname : s.namespaceLabel L with
    | none => simp [getStacksLoop, hname] at h
    | some name =>
      cases hz : GoMap.get m name with
      | none =>
        simp only [getStacksLoop, hname, hz] at h
        rw [ih _ _ h, GoMap.total_set_none m name _ hz]
        simp only [List.length_cons]
        push_cast
        ring
      | some z =>
        simp only [getStacksLoop, hname, hz] at h
        rw [ih _ _ h, GoMap.total_set_some m name _ z hz]
        simp only [List.length_cons]
        push_cast
        ring

theorem getStacks_total (order : MapOrder) (L : String) (calls : Nat)
    (services : List Service) (hall : ∀ s ∈ services, s.namespaceLabel L ≠ none) :
    ((getStacks order L ⟨(services, none), calls⟩).1.1.map fun s => s.Services).sum =
      (services.length : Int) := by
  obtain ⟨m, hm, _, _⟩ := getStacksLoop_ok L services [] hall
  have ht := getStacksLoop_total L services [] m hm
  have hg : (getStacks order L ⟨(services, none), calls⟩).1.1 =
      (order.range m).map Prod.snd := by
    simp [getStacks, APIClient.ServiceList, hm]
  rw [hg, List.map_map]
  have hp : ((order.range m).map ((fun s : stack => s.Services) ∘ Prod.snd)).Perm
      (m.map ((fun s : stack => s.Services) ∘ Prod.snd)) := (order.perm m).map _
  rw [hp.sum_eq]
  simpa [GoMap.total, Function.comp_def] using ht

theorem splitRuns_head {α : Type} (p : α → Bool) (x : α) (xs : List α) :
    ∃ run runs, splitRuns p (x :: xs) = (p x, x :: run) :: runs := by
  rw [splitRuns]
  split
  · exact ⟨[], [], rfl⟩
  · rename_i v run runs _
    split
    · rename_i hv
      exact ⟨run, runs, by rw [hv]⟩
    · exact ⟨[], (v, run) :: runs, rfl⟩

theorem writeLines_head (padchar : Char) (pending : List Char) (w : Int) (a c : String)
    (tail : List (List cell × Bool)) :
    writeLines padchar pending [w] ((rowCells a c, false) :: tail) =
      a.data ++ List.replicate (w - RuneCount a.data).toNat padchar ++ c.data ++ ['\n'] ++
        writeLines padchar pending [w] tail := by
  simp [writeLines, rowCells, writeCells_two]

theorem format_head (minwidth padding : Nat) (padchar : Char) (pending : List Char)
    (n : Nat) (a c : String) (tail : List (List cell × Bool)) :
    ∃ k rest, format minwidth padding padchar pending (n + 1) []
        ((rowCells a c, false) :: tail) =
      a.data ++ (List.replicate k padchar ++ (c.data ++ (['\n'] ++ rest))) := by
  have h0 : hasColumn 0 (rowCells a c, false) = true := by simp [hasColumn, rowCells]
  have h1 : hasColumn 1 (rowCells a c, false) = false := by simp [hasColumn, rowCells]
  obtain ⟨run, runs, hr⟩ := splitRuns_head (hasColumn 0) (rowCells a c, false) tail
  rw [h0] at hr
  simp only [format, List.length_nil, hr, List.map_cons, List.flatten_cons, if_true,
    List.nil_append]
  cases n with
  | zero =>
    rw [format, writeLines_head]
    simp only [List.append_assoc]
    exact ⟨_, _, rfl⟩
  | succ n =>
    obtain ⟨run', runs', hr'⟩ := splitRuns_head (hasColumn 1) (rowCells a c, false) run
    rw [h1] at hr'
    rw [format]
    simp only [List.length_singleton, hr', List.map_cons, List.flatten_cons, Bool.false_eq_true,
      if_false]
    rw [writeLines_head]
    simp only [List.append_assoc]
    exact ⟨_, _, rfl⟩

theorem flushNoDefers_output (b : Writer) :
    ∃ b1 : Writer, b1.lines = b.lines ∧ b1.padchar = b.padchar ∧
      b.flushNoDefers.padchar = b.padchar ∧
      b.flushNoDefers.output = b.output ++
        format b1.minwidth b1.padding b1.padchar b1.cell.text
          (((b1.lines.map (fun l => (l, false)) ++ [(b1.line, true)]).map
            fun l => l.1.length).foldr max 0) []
          (b1.lines.map (fun l => (l, false)) ++ [(b1.line, true)]) := by
  by_cases hc : b.cell.size > 0
  · by_cases he : b.endChar = '\x00'
    · exact ⟨(b.terminateCell false).1, rfl, rfl,
        by simp [Writer.flushNoDefers, hc, he, Writer.terminateCell],
        by simp [Writer.flushNoDefers, hc, he, Writer.terminateCell]⟩
    · have h1 : b.endEscape.lines = b.lines := by
        unfold Writer.endEscape Writer.updateWidth; split <;> [skip; split] <;> rfl
      have h2 : b.endEscape.padchar = b.padchar := by
        unfold Writer.endEscape Writer.updateWidth; split <;> [skip; split] <;> rfl
      have h3 : b.endEscape.output = b.output := by
        unfold Writer.endEscape Writer.updateWidth; split <;> [skip; split] <;> rfl
      exact ⟨(b.endEscape.terminateCell false).1, h1, h2,
        by simp [Writer.flushNoDefers, hc, he, Writer.terminateCell, h2],
        by simp [Writer.flushNoDefers, hc, he, Writer.terminateCell, h3]⟩
  · exact ⟨b, rfl, rfl, by simp [Writer.flushNoDefers, hc], by simp [Writer.flushNoDefers, hc]⟩

theorem headerFirst_flush (out : List Char) (b : Writer) (h : HeaderFirst out b) :
    b.flushNoDefers.padchar = ' ' ∧
      ∃ k rest, b.flushNoDefers.output = out ++ (headerLine k ++ rest) := by
  obtain ⟨hp, h⟩ := h
  obtain ⟨b1, hl, hpc, hfp, hfo⟩ := flushNoDefers_output b
  refine ⟨hfp.trans hp, ?_⟩
  rw [hfo]
  rcases h with ⟨hout, more, hmore⟩ | ⟨k, rest, hout⟩
  · have hfuel : ∃ n, (((b1.lines.map (fun l => (l, false)) ++ [(b1.line, true)]).map
        fun l => l.1.length).foldr max 0) = n + 1 := by
      refine ⟨_, (Nat.succ_pred_eq_of_pos ?_).symm⟩
      rw [hl, hmore]
      simp [rowCells]
    obtain ⟨n, hn⟩ := hfuel
    rw [hn, hl, hmore, List.map_cons, List.cons_append, hpc, hp, hout]
    obtain ⟨k, rest, hk⟩ := format_head b1.minwidth b1.padding ' ' b1.cell.text n
      "NAME" "SERVICES" (more.map (fun l => (l, false)) ++ [(b1.line, true)])
    refine ⟨k, rest, ?_⟩
    rw [hk]
    simp only [headerLine, List.append_assoc]
  · refine ⟨k, rest ++ format b1.minwidth b1.padding b1.padchar b1.cell.text
      (((b1.lines.map (fun l => (l, false)) ++ [(b1.line, true)]).map
        fun l => l.1.length).foldr max 0) []
      (b1.lines.map (fun l => (l, false)) ++ [(b1.line, true)]), ?_⟩
    rw [hout]
    simp only [List.append_assoc]

theorem headerFirst_of_eq (out : List Char) (b b' : Writer) (h : HeaderFirst out b)
    (hp : b'.padchar = b.padchar) (ho : b'.output = b.output) (hl : b'.lines = b.lines) :
    HeaderFirst out b' := by
  unfold HeaderFirst at *
  rw [hp, ho, hl]
  exact h

theorem headerFirst_addLine (out : List Char) (b : Writer) (h : HeaderFirst out b) :
    HeaderFirst out b.addLine := by
  obtain ⟨hp, h⟩ := h
  refine ⟨hp, ?_⟩
  rcases h with ⟨hout, more, hmore⟩ | hB
  · exact Or.inl ⟨hout, more ++ [b.line], by simp [Writer.addLine, hmore]⟩
  · exact Or.inr hB

theorem headerFirst_append (out : List Char) (b : Writer) (t : List Char)
    (h : HeaderFirst out b) : HeaderFirst out (b.append t) :=
  headerFirst_of_eq out b _ h rfl rfl rfl

theorem headerFirst_updateWidth (out : List Char) (b : Writer)
    (h : HeaderFirst out b) : HeaderFirst out b.updateWidth :=
  headerFirst_of_eq out b _ h rfl rfl rfl

theorem headerFirst_endEscape (out : List Char) (b : Writer)
    (h : HeaderFirst out b) : HeaderFirst out b.endEscape := by
  apply headerFirst_of_eq out b _ h <;>
    (unfold Writer.endEscape Writer.updateWidth; split <;> [skip; split] <;> rfl)

theorem headerFirst_startEscape (out : List Char) (b : Writer) (ch : Char)
    (h : HeaderFirst out b) : HeaderFirst out (b.startEscape ch) := by
  apply headerFirst_of_eq out b _ h <;>
    (unfold Writer.startEscape; split <;> [skip; split <;> [skip; split]] <;> rfl)

theorem headerFirst_terminateCell (out : List Char) (b : Writer) (htab : Bool)
    (h : HeaderFirst out b) : HeaderFirst out (b.terminateCell htab).1 :=
  headerFirst_of_eq out b _ h rfl rfl rfl

theorem headerFirst_writeChar (out : List Char) (b : Writer) (ch : Char)
    (h : HeaderFirst out b) : HeaderFirst out (b.writeChar ch) := by
  unfold Writer.writeChar
  split
  · split
    · have h1 := headerFirst_terminateCell out _ (decide (ch = '\t'))
        (headerFirst_updateWidth out b h)
      simp only
      split
      · split
        · obtain ⟨hp, k, rest, hk⟩ := headerFirst_flush out _ (headerFirst_addLine out _ h1)
          exact ⟨hp, Or.inr ⟨k, rest, hk⟩⟩
        · exact headerFirst_addLine out _ h1
      · exact h1
    · split
      · exact headerFirst_startEscape out _ _
          (headerFirst_append out _ _ (headerFirst_updateWidth out b h))
      · exact headerFirst_append out b _ h
  · split
    · exact headerFirst_endEscape out _ (headerFirst_append out b _ h)
    · exact headerFirst_append out b _ h

theorem headerFirst_Write (out : List Char) (t : List Char) :
    ∀ b : Writer, HeaderFirst out b → HeaderFirst out (b.Write t) := by
  induction t with
  | nil => intro b h; exact h
  | cons c t ih =>
    intro b h
    exact ih _ (headerFirst_writeChar out b c h)

theorem headerFirst_rows (out : List Char) (rows : List stack) :
    ∀ b : Writer, HeaderFirst out b →
      HeaderFirst out (rows.foldl (fun w s => Fprintf w s.Name (Itoa s.Services)) b) := by
  induction rows with
  | nil => intro b h; exact h
  | cons s rows ih =>
    intro b h
    exact ih _ (headerFirst_Write out _ b h)

theorem printTable_header_first (out : String) (ztacks : List stack) :
    ∃ k rest, printTable out ztacks = ⟨out.data ++ (headerLine k ++ rest)⟩ := by
  have hhdr : IsClean "NAME".data := by
    intro c hc; revert c; decide
  have hsrv : IsClean "SERVICES".data := by
    intro c hc; revert c; decide
  have h0 : HeaderFirst out.data (Fprintf (NewWriter out.data 0 4 2 ' ') "NAME" "SERVICES") := by
    rw [Fprintf_clean _ _ _ hhdr hsrv rfl rfl rfl rfl]
    exact ⟨rfl, Or.inl ⟨rfl, [], rfl⟩⟩
  obtain ⟨_, k, rest, hk⟩ := headerFirst_flush out.data _
    (headerFirst_rows out.data (sortSort ztacks) _ h0)
  exact ⟨k, rest, by simp only [printTable, Writer.Flush, hk]⟩

/-! ## The claims -/

/-- C1: when every service record returned by the API carries the namespace
label, `getStacks` succeeds; the `Services` field of every summary it returns
is the number of records whose label value is the summary's `Name`, and for
every label value that occurs the summary with that name and that number is
among the summaries returned. -/
theorem getStacks_counts (order : MapOrder) (L : String) (calls : Nat)
    (services : List Service) (hall : ∀ s ∈ services, s.namespaceLabel L ≠ none) :
    (getStacks order L ⟨(services, none), calls⟩).1.2 = none ∧
    (∀ s ∈ (getStacks order L ⟨(services, none), calls⟩).1.1,
      s.Services = ((services.countP fun svc =>
        decide (svc.namespaceLabel L = some s.Name) : Nat) : Int)) ∧
    (∀ svc ∈ services, ∀ name, svc.namespaceLabel L = some name →
      (⟨name, ((services.countP fun t =>
        decide (t.namespaceLabel L = some name) : Nat) : Int)⟩ : stack) ∈
          (getStacks order L ⟨(services, none), calls⟩).1.1) := by
  refine ⟨getStacks_err_none order L calls services hall, fun s hs => ?_,
    fun svc hsvc name hname => ?_⟩
  · exact ((mem_getStacks_iff order L calls services hall s).mp hs).2
  · exact (mem_getStacks_iff order L calls services hall _).mpr
      ⟨(labelCount_ne_zero_iff L services name).mpr ⟨svc, hsvc, hname⟩, rfl⟩

theorem getStacks_counts_witness :
    (∀ s ∈ webApiServices, s.namespaceLabel "ns" ≠ none) ∧
    (getStacks insertionOrder "ns" ⟨(webApiServices, none), 0⟩).1.2 = none ∧
    (⟨"api", 2⟩ : stack) ∈ (getStacks insertionOrder "ns" ⟨(webApiServices, none), 0⟩).1.1 ∧
    (⟨"web", 3⟩ : stack) ∈ (getStacks insertionOrder "ns" ⟨(webApiServices, none), 0⟩).1.1 ∧
    (getStacks insertionOrder "ns" ⟨(webApiServices, none), 0⟩).1.1.length = 2 :=
  ⟨by decide,
    (getStacks_counts insertionOrder "ns" 0 webApiServices (by decide)).1,
    (getStacks_counts insertionOrder "ns" 0 webApiServices (by decide)).2.2
      (labelled "ns" "2" "api") (by decide) "api" (by decide),
    (getStacks_counts insertionOrder "ns" 0 webApiServices (by decide)).2.2
      (labelled "ns" "1" "web") (by decide) "web" (by decide),
    by decide⟩

/-- C2: when every service record carries the namespace label, the summaries
returned by `getStacks` have pairwise distinct names, a name occurs among
them exactly when it is the label value of some record, and there are as
many summaries as distinct label values. -/
theorem getStacks_names (order : MapOrder) (L : String) (calls : Nat)
    (services : List Service) (hall : ∀ s ∈ services, s.namespaceLabel L ≠ none) :
    ((getStacks order L ⟨(services, none), calls⟩).1.1.map fun s => s.Name).Nodup ∧
    (∀ n, n ∈ ((getStacks order L ⟨(services, none), calls⟩).1.1.map fun s => s.Name) ↔
      ∃ svc ∈ services, svc.namespaceLabel L = some n) ∧
    (getStacks order L ⟨(services, none), calls⟩).1.1.length =
      ((services.filterMap fun svc => svc.namespaceLabel L).dedup).length := by
  have hnd := getStacks_names_nodup_of_labelled order L calls services hall
  have hmem : ∀ n, n ∈ ((getStacks order L ⟨(services, none), calls⟩).1.1.map fun s => s.Name) ↔
      ∃ svc ∈ services, svc.namespaceLabel L = some n := by
    intro n
    rw [← labelCount_ne_zero_iff, List.mem_map]
    constructor
    · rintro ⟨s, hs, rfl⟩
      exact ((mem_getStacks_iff order L calls services hall s).mp hs).1
    · intro h0
      exact ⟨⟨n, labelCount L services n⟩,
        (mem_getStacks_iff order L calls services hall _).mpr ⟨h0, rfl⟩, rfl⟩
  refine ⟨hnd, hmem, ?_⟩
  have hperm : ((getStacks order L ⟨(services, none), calls⟩).1.1.map fun s => s.Name).Perm
      ((services.filterMap fun svc => svc.namespaceLabel L).dedup) := by
    rw [List.perm_ext_iff_of_nodup hnd (List.nodup_dedup _)]
    intro n
    rw [hmem, List.mem_dedup, List.mem_filterMap]
  simpa using hperm.length_eq

theorem getStacks_names_witness :
    (∀ s ∈ webApiServices, s.namespaceLabel "ns" ≠ none) ∧
    (((getStacks reverseOrder "ns" ⟨(webApiServices, none), 0⟩).1.1.map fun s => s.Name).Nodup ∧
    (∀ n, n ∈ ((getStacks reverseOrder "ns" ⟨(webApiServices, none), 0⟩).1.1.map
        fun s => s.Name) ↔
      ∃ svc ∈ webApiServices, svc.namespaceLabel "ns" = some n) ∧
    (getStacks reverseOrder "ns" ⟨(webApiServices, none), 0⟩).1.1.length =
      ((webApiServices.filterMap fun svc => svc.namespaceLabel "ns").dedup).length) :=
  ⟨by decide, getStacks_names reverseOrder "ns" 0 webApiServices (by decide)⟩

/-- C3: when the listing call succeeds, `getStacks` returns an error exactly
when some returned service record lacks the namespace label key, and then
it returns no summaries, wherever the offending record stands in the list. -/
theorem getStacks_error_iff (order : MapOrder) (L : String) (calls : Nat)
    (services : List Service) :
    ((getStacks order L ⟨(services, none), calls⟩).1.2 ≠ none ↔
      ∃ s ∈ services, s.namespaceLabel L = none) ∧
    ((getStacks order L ⟨(services, none), calls⟩).1.2 ≠ none →
      (getStacks order L ⟨(services, none), calls⟩).1.1 = []) := by
  by_cases h : ∃ s ∈ services, s.namespaceLabel L = none
  · obtain ⟨s, hs⟩ := exists_find_of_missing L services h
    rw [getStacks_missing order L calls services s hs]
    simp [h]
  · have hall : ∀ s ∈ services, s.namespaceLabel L ≠ none := by
      intro s hs hn; exact h ⟨s, hs, hn⟩
    obtain ⟨m, hm, _, _⟩ := getStacks_ok order L calls services hall
    rw [hm]
    simp [h]

theorem getStacks_error_iff_witness :
    (getStacks insertionOrder "ns"
      ⟨([labelled "ns" "1" "web", labelled "other" "2" "x", labelled "ns" "3" "web"], none),
        0⟩).1.2 ≠ none ∧
    (((getStacks insertionOrder "ns"
      ⟨([labelled "ns" "1" "web", labelled "other" "2" "x", labelled "ns" "3" "web"], none),
        0⟩).1.2 ≠ none ↔
      ∃ s ∈ [labelled "ns" "1" "web", labelled "other" "2" "x", labelled "ns" "3" "web"],
        s.namespaceLabel "ns" = none) ∧
    ((getStacks insertionOrder "ns"
      ⟨([labelled "ns" "1" "web", labelled "other" "2" "x", labelled "ns" "3" "web"], none),
        0⟩).1.2 ≠ none →
      (getStacks insertionOrder "ns"
      ⟨([labelled "ns" "1" "web", labelled "other" "2" "x", labelled "ns" "3" "web"], none),
        0⟩).1.1 = [])) :=
  ⟨by decide, getStacks_error_iff insertionOrder "ns" 0
    [labelled "ns" "1" "web", labelled "other" "2" "x", labelled "ns" "3" "web"]⟩

/-- C4: `printTable` writes the header and then one data row per summary, in
an order that is a rearrangement of the input list and non-decreasing in
`Name`, whatever the order of the input; for names without cell-ending
characters and without the escape byte the text written is the table of
these rows; for the summaries returned by `getStacks` the order is strictly
ascending. -/
theorem printTable_rows_sorted (out : String) (ztacks : List stack) :
    ∃ rows : List stack, rows.Perm ztacks ∧
      rows.Pairwise (fun a b => a.Name ≤ b.Name) ∧
      printTable out ztacks =
        ⟨(rows.foldl (fun w s => Fprintf w s.Name (Itoa s.Services))
          (Fprintf (NewWriter out.data 0 4 2 ' ') "NAME" "SERVICES")).Flush.output⟩ ∧
      ((∀ s ∈ ztacks, IsClean s.Name.data) →
        printTable out ztacks = ⟨out.data ++ tableText rows⟩) ∧
      ∀ (order : MapOrder) (L : String) (apiclient : APIClient),
        ztacks = (getStacks order L apiclient).1.1 →
          rows.Pairwise (fun a b => a.Name < b.Name) :=
  ⟨sortSort ztacks, (sortSort_spec ztacks).1, sort_pairwise_le ztacks, rfl,
    printTable_eq out ztacks,
    fun order L apiclient h =>
      sort_pairwise_lt _ (h ▸ getStacks_names_nodup order L apiclient)⟩

theorem printTable_rows_sorted_witness :
    (∀ s ∈ [(⟨"web", 3⟩ : stack), ⟨"db", 1⟩, ⟨"api", 2⟩], IsClean s.Name.data) ∧
    (∃ rows : List stack, rows.Perm [⟨"web", 3⟩, ⟨"db", 1⟩, ⟨"api", 2⟩] ∧
      rows.Pairwise (fun a b => a.Name ≤ b.Name) ∧
      printTable "" [⟨"web", 3⟩, ⟨"db", 1⟩, ⟨"api", 2⟩] = ⟨"".data ++ tableText rows⟩) ∧
    printTable "" [⟨"web", 3⟩, ⟨"db", 1⟩, ⟨"api", 2⟩] =
      "NAME  SERVICES\napi   2\ndb    1\nweb   3\n" :=
  ⟨by decide,
    (printTable_rows_sorted "" [⟨"web", 3⟩, ⟨"db", 1⟩, ⟨"api", 2⟩]).imp
      (fun _ h => ⟨h.1, h.2.1, h.2.2.2.1 (by decide)⟩),
    (printTable_eq "" [⟨"web", 3⟩, ⟨"db", 1⟩, ⟨"api", 2⟩] (by decide)).trans (by decide)⟩

/-- C5: `runList` returns the error of `getStacks`; when `getStacks` fails,
because the listing call failed or because a service lacks the namespace
label, the output stream is left as it was, so the stream changes only when
`getStacks` succeeded, and then it holds what `printTable` wrote. -/
theorem runList_error (order : MapOrder) (L : String)
    (dockerCli : DockerCli) (opts : listOptions) :
    (runList order L dockerCli opts).1 = (getStacks order L dockerCli.Client).1.2 ∧
    ((getStacks order L dockerCli.Client).1.2 ≠ none →
      (runList order L dockerCli opts).2.Out = dockerCli.Out) ∧
    ((runList order L dockerCli opts).2.Out ≠ dockerCli.Out →
      (getStacks order L dockerCli.Client).1.2 = none) ∧
    ((getStacks order L dockerCli.Client).1.2 = none →
      (runList order L dockerCli opts).2.Out =
        printTable dockerCli.Out (getStacks order L dockerCli.Client).1.1) ∧
    (∀ e, dockerCli.Client.response.2 = some e →
      (runList order L dockerCli opts).1 = some e ∧
      (runList order L dockerCli opts).2.Out = dockerCli.Out) ∧
    (∀ s, dockerCli.Client.response.2 = none →
      dockerCli.Client.response.1.find? (fun t => decide (t.namespaceLabel L = none)) = some s →
      (runList order L dockerCli opts).1 = some (Errorf L s.ID) ∧
      (runList order L dockerCli opts).2.Out = dockerCli.Out) := by
  have key : ∀ err, (getStacks order L dockerCli.Client).1.2 = some err →
      (runList order L dockerCli opts).1 = some err ∧
      (runList order L dockerCli opts).2.Out = dockerCli.Out := by
    intro err h
    simp [runList, h]
  refine ⟨?_, ?_, ?_, ?_, ?_, ?_⟩
  · cases h : (getStacks order L dockerCli.Client).1.2 <;> simp [runList, h]
  · intro h
    obtain ⟨err, herr⟩ := Option.ne_none_iff_exists'.mp h
    exact (key err herr).2
  · intro h
    by_contra hne
    obtain ⟨err, herr⟩ := Option.ne_none_iff_exists'.mp hne
    exact h (key err herr).2
  · intro h
    simp [runList, h]
  · intro e he
    obtain ⟨⟨⟨services, err⟩, calls⟩, out⟩ := dockerCli
    simp only at he
    subst he
    exact key e (by simp [getStacks, APIClient.ServiceList])
  · intro s he hs
    obtain ⟨⟨⟨services, err⟩, calls⟩, out⟩ := dockerCli
    simp only at he hs
    subst he
    exact key _ (by rw [getStacks_missing order L calls services s hs])

theorem runList_error_witness :
    (getStacks insertionOrder "ns"
      (⟨⟨([labelled "ns" "1" "web", labelled "other" "2" "x"], none), 0⟩, "$ "⟩ :
        DockerCli).Client).1.2 ≠ none ∧
    (runList insertionOrder "ns"
      ⟨⟨([labelled "ns" "1" "web", labelled "other" "2" "x"], none), 0⟩, "$ "⟩ {}).1
        = some (Errorf "ns" "2") ∧
    (runList insertionOrder "ns"
      ⟨⟨([labelled "ns" "1" "web", labelled "other" "2" "x"], none), 0⟩, "$ "⟩ {}).2.Out
        = "$ " :=
  ⟨by decide,
    ((runList_error insertionOrder "ns"
      ⟨⟨([labelled "ns" "1" "web", labelled "other" "2" "x"], none), 0⟩, "$ "⟩ {}).1).trans
      (by decide),
    (runList_error insertionOrder "ns"
      ⟨⟨([labelled "ns" "1" "web", labelled "other" "2" "x"], none), 0⟩, "$ "⟩ {}).2.1
      (by decide)⟩

/-- C6: when the listing call returns zero services, `getStacks` succeeds
with no summaries, and `runList` returns no error and appends to the output
exactly the header line `NAME  SERVICES` and a newline. -/
theorem runList_no_services (order : MapOrder) (L : String)
    (calls : Nat) (out : String) (opts : listOptions) :
    (getStacks order L ⟨([], none), calls⟩).1 = ([], none) ∧
    (runList order L ⟨⟨([], none), calls⟩, out⟩ opts).1 = none ∧
    (runList order L ⟨⟨([], none), calls⟩, out⟩ opts).2.Out = out ++ "NAME  SERVICES\n" := by
  refine ⟨getStacks_nil order L calls, ?_, ?_⟩
  · simp [runList, getStacks_nil]
  · simp [runList, getStacks_nil, printTable_nil]

/-- C7 as stated fails: the name `x\xffy` holds no tab, vertical tab, newline
or form feed, but its byte `0xff` opens an escaped segment of the tabwriter
that is never closed, so the tabs and newlines that follow are passed on as
they are and the rows are not laid out in columns. -/
theorem printTable_layout_counterexample :
    (∀ s ∈ [(⟨"x\xffy", 1⟩ : stack), ⟨"zz", 2⟩], NoCellEnd s.Name.data) ∧
    printTable "" [⟨"x\xffy", 1⟩, ⟨"zz", 2⟩] = "NAME  SERVICES\nx\xffy\t1\nzz\t2\n" ∧
    tableText (sortSort [⟨"x\xffy", 1⟩, ⟨"zz", 2⟩]) =
      "NAME  SERVICES\nx\xffy   1\nzz    2\n".data ∧
    printTable "" [⟨"x\xffy", 1⟩, ⟨"zz", 2⟩] ≠
      ⟨"".data ++ tableText (sortSort [⟨"x\xffy", 1⟩, ⟨"zz", 2⟩])⟩ := by
  decide

/-- C7, amended: for summaries whose names contain no tab, vertical tab,
newline, form feed or byte `0xff`, `printTable` appends to the output the
header line and one line per summary, in an order that is a rearrangement of
the input and non-decreasing in `Name`; each line is the first cell, spaces
up to the width `W + 2` (at least two of them, `W` the number of runes of the
longest first cell, `NAME` included), the second cell and a newline; the
second cell of a data line is the canonical decimal text of `Services`, with
a minus sign before it when the count is negative, and it is not empty and
holds no space. -/
theorem printTable_layout (out : String) (ztacks : List stack)
    (h : ∀ s ∈ ztacks, IsClean s.Name.data) :
    ∃ rows : List stack, rows.Perm ztacks ∧
      rows.Pairwise (fun a b => a.Name ≤ b.Name) ∧
      printTable out ztacks =
        ⟨out.data ++ (tableLine (tableWidth rows) "NAME" "SERVICES" ++
          (rows.map fun s =>
            s.Name.data ++
              List.replicate (tableWidth rows + 2 - RuneCount s.Name.data) ' ' ++
              (Itoa s.Services).data ++ ['\n']).flatten)⟩ ∧
      tableLine (tableWidth rows) "NAME" "SERVICES" =
        "NAME".data ++ List.replicate (tableWidth rows + 2 - 4) ' ' ++
          "SERVICES".data ++ ['\n'] ∧
      2 ≤ tableWidth rows + 2 - 4 ∧
      (∀ s ∈ rows,
        2 ≤ tableWidth rows + 2 - RuneCount s.Name.data ∧
        RuneCount s.Name.data + (tableWidth rows + 2 - RuneCount s.Name.data) =
          tableWidth rows + 2 ∧
        (∃ t, (Itoa s.Services).data = (if s.Services < 0 then ['-'] else []) ++ t ∧
          IsCanonicalDecimal t s.Services.natAbs) ∧
        (Itoa s.Services).data ≠ [] ∧ ∀ c ∈ (Itoa s.Services).data, c ≠ ' ') := by
  obtain ⟨hw, hws⟩ := le_tableWidth (sortSort ztacks)
  have hw4 : 4 ≤ tableWidth (sortSort ztacks) := hw
  refine ⟨sortSort ztacks, (sortSort_spec ztacks).1, sort_pairwise_le ztacks, ?_, rfl,
    by omega, fun s hs => ?_⟩
  · rw [printTable_eq out ztacks h]; rfl
  · have := hws s hs
    exact ⟨by omega, by omega, ⟨_, Itoa_eq _, toDigits_canonical _⟩, Itoa_no_space _⟩

theorem printTable_layout_witness :
    (∀ s ∈ [(⟨"shop", 12⟩ : stack), ⟨"cms", 1⟩, ⟨"a-long-name", 0⟩], IsClean s.Name.data) ∧
    (∃ rows : List stack, rows.Perm [⟨"shop", 12⟩, ⟨"cms", 1⟩, ⟨"a-long-name", 0⟩] ∧
      rows.Pairwise (fun a b => a.Name ≤ b.Name) ∧
      printTable "" [⟨"shop", 12⟩, ⟨"cms", 1⟩, ⟨"a-long-name", 0⟩] =
        ⟨"".data ++ (tableLine (tableWidth rows) "NAME" "SERVICES" ++
          (rows.map fun s =>
            s.Name.data ++
              List.replicate (tableWidth rows + 2 - RuneCount s.Name.data) ' ' ++
              (Itoa s.Services).data ++ ['\n']).flatten)⟩) ∧
    printTable "" [⟨"shop", 12⟩, ⟨"cms", 1⟩, ⟨"a-long-name", 0⟩] =
      "NAME         SERVICES\na-long-name  0\ncms          1\nshop         12\n" :=
  ⟨by decide,
    (printTable_layout "" [⟨"shop", 12⟩, ⟨"cms", 1⟩, ⟨"a-long-name", 0⟩] (by decide)).imp
      (fun _ h => ⟨h.1, h.2.1, h.2.2.1⟩),
    (printTable_eq "" [⟨"shop", 12⟩, ⟨"cms", 1⟩, ⟨"a-long-name", 0⟩] (by decide)).trans
      (by decide)⟩

/-- C8: for the services `1 -> shop`, `2 -> shop`, `3 -> cms`, `runList`
returns no error and appends to the output exactly the three lines
`NAME  SERVICES`, `cms   1`, `shop  2`, in that order, whatever the order in
which the map is visited. -/
theorem runList_shop_cms (order : MapOrder) (L : String)
    (calls : Nat) (out : String) (opts : listOptions) :
    (runList order L ⟨⟨(shopCmsServices L, none), calls⟩, out⟩ opts).1 = none ∧
    (runList order L ⟨⟨(shopCmsServices L, none), calls⟩, out⟩ opts).2.Out =
      out ++ "NAME  SERVICES\ncms   1\nshop  2\n" := by
  have hperm : ((order.range [("shop", ⟨"shop", 2⟩), ("cms", ⟨"cms", 1⟩)]).map Prod.snd).Perm
      [(⟨"shop", 2⟩ : stack), ⟨"cms", 1⟩] :=
    (order.perm _).map Prod.snd
  have hsort : sortSort ((order.range [("shop", ⟨"shop", 2⟩), ("cms", ⟨"cms", 1⟩)]).map
      Prod.snd) = [(⟨"cms", 1⟩ : stack), ⟨"shop", 2⟩] := by
    rw [sort_unique _ _ hperm (((hperm.map _).nodup_iff).mpr (by decide))]
    decide
  have hclean : ∀ s ∈ (order.range [("shop", ⟨"shop", 2⟩), ("cms", ⟨"cms", 1⟩)]).map Prod.snd,
      IsClean s.Name.data := by
    intro s hs
    have hall : ∀ t ∈ [(⟨"shop", 2⟩ : stack), ⟨"cms", 1⟩], IsClean t.Name.data := by decide
    exact hall s (hperm.mem_iff.mp hs)
  constructor
  · simp [runList, getStacks_shopCms]
  · simp only [runList, getStacks_shopCms]
    rw [printTable_eq out _ hclean, hsort]
    rfl

/-- C9: for two lists of service records with the same multiset of namespace
label values (in particular two lists that are permutations of each other),
every record carrying the label, the text rendered by `getStacks` followed by
`printTable` is the same, whatever the orders in which the maps are visited. -/
theorem render_order_independent (order₁ order₂ : MapOrder)
    (L : String) (calls₁ calls₂ : Nat) (out : String) (services₁ services₂ : List Service)
    (hp : (services₁.map fun s => s.namespaceLabel L).Perm
      (services₂.map fun s => s.namespaceLabel L))
    (hall : ∀ s ∈ services₁, s.namespaceLabel L ≠ none) :
    printTable out (getStacks order₁ L ⟨(services₁, none), calls₁⟩).1.1 =
      printTable out (getStacks order₂ L ⟨(services₂, none), calls₂⟩).1.1 ∧
    (runList order₁ L ⟨⟨(services₁, none), calls₁⟩, out⟩ {}).2.Out =
      (runList order₂ L ⟨⟨(services₂, none), calls₂⟩, out⟩ {}).2.Out := by
  have hall₂ : ∀ s ∈ services₂, s.namespaceLabel L ≠ none := by
    intro s hs
    have : s.namespaceLabel L ∈ services₁.map fun s => s.namespaceLabel L :=
      hp.mem_iff.mpr (List.mem_map_of_mem _ hs)
    obtain ⟨t, ht, he⟩ := List.mem_map.mp this
    rw [← he]
    exact hall t ht
  have hprint := printTable_congr out _ _
    (sort_unique _ _
      (getStacks_perm order₁ order₂ L calls₁ calls₂ services₁ services₂ hp hall)
      (getStacks_names_nodup order₁ L ⟨(services₁, none), calls₁⟩))
  refine ⟨hprint, ?_⟩
  have h₁ := getStacks_err_none order₁ L calls₁ services₁ hall
  have h₂ := getStacks_err_none order₂ L calls₂ services₂ hall₂
  simp only [runList, h₁, h₂]
  exact hprint

theorem render_order_independent_witness :
    ((webApiServices.map fun s => s.namespaceLabel "ns").Perm
      (webApiServices.reverse.map fun s => s.namespaceLabel "ns") ∧
    ∀ s ∈ webApiServices, s.namespaceLabel "ns" ≠ none) ∧
    (printTable "" (getStacks insertionOrder "ns" ⟨(webApiServices, none), 0⟩).1.1 =
      printTable ""
        (getStacks reverseOrder "ns" ⟨(webApiServices.reverse, none), 0⟩).1.1 ∧
    (runList insertionOrder "ns" ⟨⟨(webApiServices, none), 0⟩, ""⟩ {}).2.Out =
      (runList reverseOrder "ns"
        ⟨⟨(webApiServices.reverse, none), 0⟩, ""⟩ {}).2.Out) :=
  ⟨⟨(List.reverse_perm webApiServices).symm.map _, by decide⟩,
    render_order_independent insertionOrder reverseOrder "ns" 0 0 ""
      webApiServices webApiServices.reverse
      ((List.reverse_perm webApiServices).symm.map _) (by decide)⟩

/-- C10: when a service lacks the namespace label, the error returned by
`getStacks` is the one built for the first such service in the order of the
API response, and its message contains the label key and that service's
identifier. -/
theorem getStacks_error_message (order : MapOrder) (L : String) (calls : Nat)
    (services : List Service) (s : Service)
    (h : services.find? (fun t => decide (t.namespaceLabel L = none)) = some s) :
    (getStacks order L ⟨(services, none), calls⟩).1.2 = some (Errorf L s.ID) ∧
    Contains (Errorf L s.ID).msg L ∧ Contains (Errorf L s.ID).msg s.ID := by
  refine ⟨?_, ⟨"cannot get label ", " for service " ++ s.ID, ?_⟩,
    ⟨"cannot get label " ++ L ++ " for service ", "", ?_⟩⟩
  · rw [getStacks_missing order L calls services s h]
  · simp [Errorf, String.append_assoc]
  · simp [Errorf]

theorem getStacks_error_message_witness :
    [labelled "ns" "1" "web", labelled "other" "2" "x", labelled "ns" "3" "web",
        labelled "other" "4" "y"].find?
      (fun t => decide (t.namespaceLabel "ns" = none)) = some (labelled "other" "2" "x") ∧
    ((getStacks insertionOrder "ns"
      ⟨([labelled "ns" "1" "web", labelled "other" "2" "x", labelled "ns" "3" "web",
        labelled "other" "4" "y"], none), 0⟩).1.2
        = some (Errorf "ns" (labelled "other" "2" "x").ID) ∧
    Contains (Errorf "ns" (labelled "other" "2" "x").ID).msg "ns" ∧
    Contains (Errorf "ns" (labelled "other" "2" "x").ID).msg (labelled "other" "2" "x").ID) :=
  ⟨by decide, getStacks_error_message insertionOrder "ns" 0 _ _ (by decide)⟩

/-- C11: if the listing call returns an error, `getStacks` returns exactly
that error and no summaries, whatever services the response carries (no
record is inspected, so no missing-label error replaces it), and the client
has been called once. -/
theorem getStacks_api_error (order : MapOrder) (L : String) (services : List Service)
    (err : GoError) (calls : Nat) :
    getStacks order L ⟨(services, some err), calls⟩ =
      (([], some err), ⟨(services, some err), calls + 1⟩) := by
  simp [getStacks, APIClient.ServiceList]

/-- C12: the command is `ls` with the alias `list`; for every non-empty
argument list its execution returns the usage error and leaves the
environment as it was, so `runList` has not run and the listing call has not
been made; for the empty argument list the execution is that of `runList`,
which makes the listing call once. -/
theorem newListCommand_no_args (order : MapOrder) (L : String)
    (usage : GoError) (dockerCli : DockerCli) (args : List String) :
    (newListCommand order L usage).Use = "ls" ∧
    (newListCommand order L usage).Aliases = ["list"] ∧
    (args ≠ [] →
      (newListCommand order L usage).execute dockerCli args = (some usage, dockerCli)) ∧
    (newListCommand order L usage).execute dockerCli [] = runList order L dockerCli {} ∧
    ((newListCommand order L usage).execute dockerCli []).2.Client.calls =
      dockerCli.Client.calls + 1 := by
  refine ⟨rfl, rfl, ?_, rfl, ?_⟩
  · intro h
    have hlen : ¬ args.length = 0 := fun e => h (List.length_eq_zero.mp e)
    simp [Command.execute, newListCommand, NoArgs, hlen]
  · obtain ⟨⟨⟨services, err⟩, calls⟩, out⟩ := dockerCli
    cases err with
    | some e =>
      simp [Command.execute, newListCommand, NoArgs, runList, getStacks, APIClient.ServiceList]
    | none =>
      cases hl : getStacksLoop L services [] <;>
        simp [Command.execute, newListCommand, NoArgs, runList, getStacks,
          APIClient.ServiceList, hl]

theorem newListCommand_no_args_witness :
    ["mystack"] ≠ ([] : List String) ∧
    (newListCommand insertionOrder "ns" ⟨"usage"⟩).execute
      ⟨⟨([labelled "ns" "1" "web"], none), 0⟩, ""⟩ ["mystack"] =
        (some ⟨"usage"⟩, ⟨⟨([labelled "ns" "1" "web"], none), 0⟩, ""⟩) :=
  ⟨by decide,
    (newListCommand_no_args insertionOrder "ns" ⟨"usage"⟩
      ⟨⟨([labelled "ns" "1" "web"], none), 0⟩, ""⟩ ["mystack"]).2.2.1 (by decide)⟩

/-- C13: when every service record carries the namespace label, every summary
returned by `getStacks` counts at least one service, and the counts of all
summaries add up to the number of service records. -/
theorem getStacks_counts_total (order : MapOrder) (L : String) (calls : Nat)
    (services : List Service) (hall : ∀ s ∈ services, s.namespaceLabel L ≠ none) :
    (∀ s ∈ (getStacks order L ⟨(services, none), calls⟩).1.1, 1 ≤ s.Services) ∧
    ((getStacks order L ⟨(services, none), calls⟩).1.1.map fun s => s.Services).sum =
      (services.length : Int) := by
  refine ⟨fun s hs => ?_, getStacks_total order L calls services hall⟩
  obtain ⟨h0, h1⟩ := (mem_getStacks_iff order L calls services hall s).mp hs
  rw [h1]
  exact_mod_cast Nat.one_le_iff_ne_zero.mpr h0

theorem getStacks_counts_total_witness :
    (∀ s ∈ webApiServices, s.namespaceLabel "ns" ≠ none) ∧
    ((∀ s ∈ (getStacks reverseOrder "ns" ⟨(webApiServices, none), 0⟩).1.1, 1 ≤ s.Services) ∧
    ((getStacks reverseOrder "ns" ⟨(webApiServices, none), 0⟩).1.1.map
      fun s => s.Services).sum = (webApiServices.length : Int)) :=
  ⟨by decide, getStacks_counts_total reverseOrder "ns" 0 webApiServices (by decide)⟩

/-- C14: a record whose namespace label key is present with the empty text as
value has the label; when every record has the key, `getStacks` returns no
error, and when some record has the empty value the summaries hold one named
by the empty text that counts the records with the empty value; an error is
returned only when the key is absent from some record. -/
theorem getStacks_empty_label (order : MapOrder) (L : String) (calls : Nat)
    (services : List Service) :
    (∀ (id : String) (others : List (String × String)),
      (⟨id, ⟨(L, "") :: others⟩⟩ : Service).namespaceLabel L = some "") ∧
    ((∀ s ∈ services, s.namespaceLabel L ≠ none) →
      (getStacks order L ⟨(services, none), calls⟩).1.2 = none ∧
      ((∃ s ∈ services, s.namespaceLabel L = some "") →
        (⟨"", ((services.countP fun svc => decide (svc.namespaceLabel L = some "") : Nat) : Int)⟩
          : stack) ∈ (getStacks order L ⟨(services, none), calls⟩).1.1 ∧
        1 ≤ services.countP fun svc => decide (svc.namespaceLabel L = some ""))) ∧
    ((getStacks order L ⟨(services, none), calls⟩).1.2 ≠ none →
      ∃ s ∈ services, List.lookup L s.Spec.Labels = none) := by
  refine ⟨fun id others => ?_, fun hall => ⟨getStacks_err_none order L calls services hall,
    fun hex => ?_⟩, fun herr => ?_⟩
  · simp [Service.namespaceLabel, lookup_cons_ite]
  · have h0 := (labelCount_ne_zero_iff L services "").mpr hex
    exact ⟨(mem_getStacks_iff order L calls services hall _).mpr ⟨h0, rfl⟩,
      Nat.one_le_iff_ne_zero.mpr h0⟩
  · by_contra hno
    have hall : ∀ s ∈ services, s.namespaceLabel L ≠ none :=
      fun s hs hn => hno ⟨s, hs, hn⟩
    exact herr (getStacks_err_none order L calls services hall)

theorem getStacks_empty_label_witness :
    ((∀ s ∈ [labelled "ns" "1" "", labelled "ns" "2" "web", labelled "ns" "3" ""],
      s.namespaceLabel "ns" ≠ none) ∧
    ∃ s ∈ [labelled "ns" "1" "", labelled "ns" "2" "web", labelled "ns" "3" ""],
      s.namespaceLabel "ns" = some "") ∧
    ((getStacks insertionOrder "ns"
      ⟨([labelled "ns" "1" "", labelled "ns" "2" "web", labelled "ns" "3" ""], none), 0⟩).1.2
        = none ∧
    (⟨"", 2⟩ : stack) ∈ (getStacks insertionOrder "ns"
      ⟨([labelled "ns" "1" "", labelled "ns" "2" "web", labelled "ns" "3" ""], none),
        0⟩).1.1) :=
  ⟨⟨by decide, by decide⟩,
    ((getStacks_empty_label insertionOrder "ns" 0
      [labelled "ns" "1" "", labelled "ns" "2" "web", labelled "ns" "3" ""]).2.1
        (by decide)).1,
    (((getStacks_empty_label insertionOrder "ns" 0
      [labelled "ns" "1" "", labelled "ns" "2" "web", labelled "ns" "3" ""]).2.1
        (by decide)).2 (by decide)).1⟩

/-- C15: the summaries that `printTable` renders are a rearrangement of the
input list, in non-decreasing order of `Name`; the texts handed to the writer are the header followed by one
row per rendered summary, made of its own `Name` and `Services`; what the
call appends to the output always begins with the header line, also for the
empty list, where it is the header line alone; for names without cell-ending
characters and without the escape byte the appended text is the header line
and one line per summary. -/
theorem printTable_rows_perm (out : String) (ztacks : List stack) :
    ∃ rows : List stack, rows.Perm ztacks ∧
      rows.Pairwise (fun a b => a.Name ≤ b.Name) ∧
      rows.length = ztacks.length ∧
      printTable out ztacks =
        ⟨(((listItemFmt "NAME" "SERVICES" ::
            rows.map fun s => listItemFmt s.Name (Itoa s.Services)).foldl
          (fun w t => w.Write t.data) (NewWriter out.data 0 4 2 ' ')).Flush).output⟩ ∧
      (∃ k rest, printTable out ztacks = ⟨out.data ++ (headerLine k ++ rest)⟩) ∧
      printTable out [] = out ++ "NAME  SERVICES\n" ∧
      ((∀ s ∈ ztacks, IsClean s.Name.data) →
        printTable out ztacks =
          ⟨out.data ++ (tableLine (tableWidth rows) "NAME" "SERVICES" ++
            (rows.map fun s =>
              tableLine (tableWidth rows) s.Name (Itoa s.Services)).flatten)⟩) := by
  refine ⟨sortSort ztacks, (sortSort_spec ztacks).1, sort_pairwise_le ztacks,
    (sortSort_spec ztacks).1.length_eq, ?_,
    printTable_header_first out ztacks, printTable_nil out, fun h => ?_⟩
  · simp only [printTable, List.foldl_cons, List.foldl_map, Fprintf]
  · rw [printTable_eq out ztacks h]; rfl

theorem printTable_rows_perm_witness :
    (∀ s ∈ [(⟨"web", 3⟩ : stack), ⟨"api", 2⟩], IsClean s.Name.data) ∧
    (∃ rows : List stack, rows.Perm [⟨"web", 3⟩, ⟨"api", 2⟩] ∧
      rows.Pairwise (fun a b => a.Name ≤ b.Name) ∧
      printTable "$ " [⟨"web", 3⟩, ⟨"api", 2⟩] =
        ⟨"$ ".data ++ (tableLine (tableWidth rows) "NAME" "SERVICES" ++
          (rows.map fun s =>
            tableLine (tableWidth rows) s.Name (Itoa s.Services)).flatten)⟩) ∧
    printTable "$ " [⟨"web", 3⟩, ⟨"api", 2⟩] = "$ NAME  SERVICES\napi   2\nweb   3\n" :=
  ⟨by decide,
    (printTable_rows_perm "$ " [⟨"web", 3⟩, ⟨"api", 2⟩]).imp
      (fun _ h => ⟨h.1, h.2.1, h.2.2.2.2.2.2 (by decide)⟩),
    (printTable_eq "$ " [⟨"web", 3⟩, ⟨"api", 2⟩] (by decide)).trans (by decide)⟩

end Stack
